import Mathlib

/-!
Verification of the local full-text search engine
(`src/projects/local-search/src/engine.js`).

JavaScript objects with string keys are modelled as association lists
(`List (String × α)`) enumerated in insertion order; property update keeps
the position of an existing key and appends a new key at the end, and
`delete` removes the key entirely.  This matches the enumeration order of
JS objects for the non-integer-like keys (words of the tokenizer, file
paths) that appear here.  JS numbers are modelled as `Nat`/`Int` where the
program only adds and subtracts integers, and as `ℝ` for the TF-IDF
scoring arithmetic (`Math.log` becomes `Real.log`).
-/

namespace LocalSearch

/-! ### Association-list maps (JS object model) -/

/-- Property read `m[k]`: first entry with the given key. -/
def aget {α : Type} (m : List (String × α)) (k : String) : Option α :=
  match m with
  | [] => none
  | (k₁, v) :: t => if k₁ = k then some v else aget t k

/-- Property write `m[k] = v`: update in place if the key exists
(keeping its position in enumeration order), otherwise append. -/
def aset {α : Type} (m : List (String × α)) (k : String) (v : α) :
    List (String × α) :=
  match m with
  | [] => [(k, v)]
  | (k₁, v₁) :: t => if k₁ = k then (k₁, v) :: t else (k₁, v₁) :: aset t k v

/-- Property removal `delete m[k]`. -/
def adel {α : Type} (m : List (String × α)) (k : String) :
    List (String × α) :=
  m.filter (fun e => e.1 ≠ k)

/-- `Object.keys m`. -/
def akeys {α : Type} (m : List (String × α)) : List String :=
  m.map Prod.fst

theorem aget_aset_self {α : Type} (m : List (String × α)) (k : String)
    (v : α) : aget (aset m k v) k = some v := by
  induction m with
  | nil => simp [aget, aset]
  | cons e t ih =>
    obtain ⟨k₁, v₁⟩ := e
    by_cases h : k₁ = k <;> simp [aget, aset, h, ih]

theorem aget_aset_ne {α : Type} (m : List (String × α)) (k k₂ : String)
    (v : α) (h : k ≠ k₂) : aget (aset m k v) k₂ = aget m k₂ := by
  induction m with
  | nil => simp [aget, aset, h]
  | cons e t ih =>
    obtain ⟨k₁, v₁⟩ := e
    by_cases h₁ : k₁ = k
    · subst h₁; simp [aget, aset, h]
    · simp only [aset, if_neg h₁]
      by_cases h₂ : k₁ = k₂ <;> simp [aget, h₂, ih]

theorem aget_adel_self {α : Type} (m : List (String × α)) (k : String) :
    aget (adel m k) k = none := by
  induction m with
  | nil => simp [aget, adel]
  | cons e t ih =>
    obtain ⟨k₁, v₁⟩ := e
    by_cases h : k₁ = k <;> simp_all [aget, adel, List.filter]

theorem aget_adel_ne {α : Type} (m : List (String × α)) (k k₂ : String)
    (h : k ≠ k₂) : aget (adel m k) k₂ = aget m k₂ := by
  induction m with
  | nil => simp [aget, adel]
  | cons e t ih =>
    obtain ⟨k₁, v₁⟩ := e
    by_cases h₁ : k₁ = k
    · subst h₁
      simp_all [aget, adel, List.filter, Ne.symm h]
    · by_cases h₂ : k₁ = k₂ <;> simp_all [aget, adel, List.filter]

theorem akeys_aset {α : Type} (m : List (String × α)) (k : String) (v : α) :
    akeys (aset m k v) = if k ∈ akeys m then akeys m else akeys m ++ [k] := by
  induction m with
  | nil => simp [akeys, aset]
  | cons e t ih =>
    obtain ⟨k₁, v₁⟩ := e
    by_cases h : k₁ = k
    · subst h; simp [akeys, aset]
    · simp only [aset, if_neg h, akeys, List.map_cons] at *
      by_cases hm : k ∈ List.map Prod.fst t <;>
        simp [hm, ih, Ne.symm h, akeys]

theorem nodup_akeys_aset {α : Type} (m : List (String × α)) (k : String)
    (v : α) (h : (akeys m).Nodup) : (akeys (aset m k v)).Nodup := by
  rw [akeys_aset]
  by_cases hm : k ∈ akeys m <;> simp_all [List.nodup_append]

theorem nodup_akeys_adel {α : Type} (m : List (String × α)) (k : String)
    (h : (akeys m).Nodup) : (akeys (adel m k)).Nodup := by
  have : akeys (adel m k) = (akeys m).filter (fun s => s ≠ k) := by
    induction m with
    | nil => rfl
    | cons e t ih =>
      obtain ⟨k₁, v₁⟩ := e
      by_cases h₁ : k₁ = k <;>
        simp_all [akeys, adel, List.filter]
  rw [this]
  exact h.filter _

theorem length_adel_mem {α : Type} (m : List (String × α)) (k : String)
    (hk : (akeys m).Nodup) (hmem : (aget m k).isSome) :
    (adel m k).length + 1 = m.length := by
  induction m with
  | nil => simp [aget] at hmem
  | cons e t ih =>
    obtain ⟨k₁, v₁⟩ := e
    simp only [akeys, List.map_cons, List.nodup_cons] at hk
    by_cases h : k₁ = k
    · subst h
      have h₁ : adel ((k₁, v₁) :: t) k₁ = adel t k₁ := by
        simp [adel, List.filter]
      have h₂ : adel t k₁ = t := by
        apply List.filter_eq_self.2
        intro e he
        have hmm : e.1 ∈ List.map Prod.fst t := List.mem_map_of_mem Prod.fst he
        simp only [decide_eq_true_eq]
        intro hcon
        exact hk.1 (hcon ▸ hmm)
      rw [h₁, h₂]
      simp
    · have h₁ : adel ((k₁, v₁) :: t) k = (k₁, v₁) :: adel t k := by
        simp [adel, List.filter, h]
      rw [h₁]
      simp only [aget, if_neg h] at hmem
      have := ih hk.2 hmem
      simp only [List.length_cons]
      omega

theorem length_adel_not_mem {α : Type} (m : List (String × α)) (k : String)
    (hmem : aget m k = none) : adel m k = m := by
  induction m with
  | nil => rfl
  | cons e t ih =>
    obtain ⟨k₁, v₁⟩ := e
    by_cases h : k₁ = k
    · simp [aget, h] at hmem
    · simp only [aget, if_neg h] at hmem
      simp [adel, List.filter, h] at *
      exact ih hmem

/-! ### Tokenizer (`tokenize`, engine.js lines 117-123)

`tokenize` lower-cases the text, replaces every character outside
`[a-z0-9_\s]` by a space (regex `/[^a-z0-9_\s]/g`), splits on `/\s+/`
(JS `String.split` semantics, which yield an empty piece before a leading
and after a trailing separator), and keeps the pieces of length 2..50.
Strings are processed character by character; `Char.toLower` stands for
`String.prototype.toLowerCase` (they agree on ASCII; non-ASCII letters are
not in the retained class `[a-z0-9_]` either way). -/

/-- The character class `[a-z0-9_]` of the tokenizer's regexes. -/
def isWordChar (c : Char) : Bool :=
  (decide ('a' ≤ c) && decide (c ≤ 'z')) ||
  (decide ('0' ≤ c) && decide (c ≤ '9')) ||
  decide (c = '_')

/-- The JS regex class `\s`: tab through carriage return, space, NBSP,
Ogham space mark, the U+2000..U+200A spaces, line/paragraph separator,
narrow NBSP, medium mathematical space, ideographic space, and BOM. -/
def isJsSpace (c : Char) : Bool :=
  (decide (9 ≤ c.toNat) && decide (c.toNat ≤ 13)) ||
  decide (c.toNat = 32) || decide (c.toNat = 0xa0) ||
  decide (c.toNat = 0x1680) ||
  (decide (0x2000 ≤ c.toNat) && decide (c.toNat ≤ 0x200a)) ||
  decide (c.toNat = 0x2028) || decide (c.toNat = 0x2029) ||
  decide (c.toNat = 0x202f) || decide (c.toNat = 0x205f) ||
  decide (c.toNat = 0xfeff) || decide (c.toNat = 0x3000)

/-- `.replace(/[^a-z0-9_\s]/g, ' ')` on a single character. -/
def replChar (c : Char) : Char :=
  if isWordChar c then c else if isJsSpace c then c else ' '

/-- JS `String.split(/\s+/)` on a character list: pieces between maximal
whitespace runs.  The state is `some acc` while a piece (possibly empty)
is being accumulated, and `none` immediately after a separator character
that is still being extended.  A leading separator produces a leading
empty piece and a trailing separator a trailing empty piece, exactly as
in JS. -/
def splitWsAux (st : Option (List Char)) (l : List Char) :
    List (List Char) :=
  match st, l with
  | some acc, [] => [acc.reverse]
  | none, [] => [[]]
  | some acc, c :: cs =>
    if isJsSpace c then acc.reverse :: splitWsAux none cs
    else splitWsAux (some (c :: acc)) cs
  | none, c :: cs =>
    if isJsSpace c then splitWsAux none cs
    else splitWsAux (some [c]) cs

/-- The length filter `w.length >= 2 && w.length <= 50`. -/
def lengthOk (t : List Char) : Bool :=
  decide (2 ≤ t.length) && decide (t.length ≤ 50)

/-- `tokenize` on a character list (lower-case, replace, split, filter). -/
def tokenizeL (l : List Char) : List (List Char) :=
  (splitWsAux (some []) ((l.map Char.toLower).map replChar)).filter lengthOk

/-- `tokenize(text)` (engine.js lines 117-123). -/
def tokenize (text : String) : List String :=
  (tokenizeL text.toList).map List.asString

/-- The maximal runs of consecutive characters satisfying `isWordChar`,
in order of occurrence: the accumulator holds the (reversed) run in
progress, a non-word character closes the run, and empty runs are never
emitted.  Written from the spec's words "maximal runs of characters from
`[a-z0-9_]`". -/
def wordRunsAux (l : List Char) (acc : List Char) : List (List Char) :=
  match l with
  | [] => if acc.isEmpty then [] else [acc.reverse]
  | c :: cs =>
    if isWordChar c then wordRunsAux cs (c :: acc)
    else if acc.isEmpty then wordRunsAux cs []
    else acc.reverse :: wordRunsAux cs []

/-- Spec-side tokenizer: the maximal `[a-z0-9_]`-runs of the lower-cased
input whose length lies between 2 and 50. -/
def tokenizeSpec (text : String) : List String :=
  ((wordRunsAux (text.toList.map Char.toLower) []).filter lengthOk).map
    List.asString

theorem isJsSpace_of_not_word (c : Char) (h : isWordChar c = false) :
    isJsSpace (replChar c) = true := by
  rw [replChar, if_neg (by simp [h])]
  by_cases hs : isJsSpace c = true
  · rw [if_pos hs]; exact hs
  · rw [if_neg hs]; decide

theorem not_isJsSpace_of_word (c : Char) (h : isWordChar c = true) :
    isJsSpace c = false := by
  simp only [isWordChar, Bool.or_eq_true, Bool.and_eq_true,
    decide_eq_true_eq, Char.le_def] at h
  simp only [isJsSpace, Bool.or_eq_true, Bool.and_eq_true,
    decide_eq_true_eq, Bool.or_eq_false_iff, Bool.and_eq_false_iff,
    decide_eq_false_iff_not]
  have hv : 48 ≤ c.toNat ∧ c.toNat ≤ 122 := by
    rcases h with (⟨h₁, h₂⟩ | ⟨h₁, h₂⟩) | h₁
    · have n₁ : ('a' : Char).toNat ≤ c.toNat := h₁
      have n₂ : c.toNat ≤ ('z' : Char).toNat := h₂
      have e₁ : ('a' : Char).toNat = 97 := rfl
      have e₂ : ('z' : Char).toNat = 122 := rfl
      omega
    · have n₁ : ('0' : Char).toNat ≤ c.toNat := h₁
      have n₂ : c.toNat ≤ ('9' : Char).toNat := h₂
      have e₁ : ('0' : Char).toNat = 48 := rfl
      have e₂ : ('9' : Char).toNat = 57 := rfl
      omega
    · subst h₁; constructor <;> decide
  omega

theorem splitWs_eq_wordRuns (l : List Char) :
    (∀ acc,
      (splitWsAux (some acc) (l.map replChar)).filter lengthOk =
        if acc.isEmpty then (wordRunsAux l []).filter lengthOk
        else (wordRunsAux l acc).filter lengthOk) ∧
    (splitWsAux none (l.map replChar)).filter lengthOk =
      (wordRunsAux l []).filter lengthOk := by
  induction l with
  | nil =>
    constructor
    · intro acc
      by_cases h : acc.isEmpty
      · have : acc = [] := by
          cases acc with
          | nil => rfl
          | cons a t => simp [List.isEmpty] at h
        subst this
        simp [splitWsAux, wordRunsAux, List.filter, lengthOk]
      · have hne : acc ≠ [] := by
          intro hc; subst hc; simp [List.isEmpty] at h
        simp [splitWsAux, wordRunsAux, h]
    · simp [splitWsAux, wordRunsAux, List.filter, lengthOk]
  | cons c cs ih =>
    by_cases hw : isWordChar c = true
    · have hr : replChar c = c := by simp [replChar, hw]
      have hs : isJsSpace c = false := not_isJsSpace_of_word c hw
      constructor
      · intro acc
        by_cases h : acc.isEmpty
        · have : acc = [] := by
            cases acc with
            | nil => rfl
            | cons a t => simp [List.isEmpty] at h
          subst this
          simp only [List.map_cons, hr, splitWsAux, hs, if_neg,
            Bool.false_eq_true, wordRunsAux, hw, if_pos, List.isEmpty_nil,
            if_true]
          have := ih.1 [c]
          simpa using this
        · have hne : acc ≠ [] := by
            intro hc; subst hc; simp [List.isEmpty] at h
          simp only [List.map_cons, hr, splitWsAux, hs, Bool.false_eq_true,
            if_false, wordRunsAux, hw, if_true, h, if_neg,
            Bool.not_eq_true]
          have := ih.1 (c :: acc)
          simpa using this
      · simp only [List.map_cons, hr, splitWsAux, hs, Bool.false_eq_true,
          if_false, wordRunsAux, hw, if_true]
        have := ih.1 [c]
        simpa using this
    · have hw₀ : isWordChar c = false := by
        cases hcc : isWordChar c with
        | true => exact absurd hcc hw
        | false => rfl
      have hs : isJsSpace (replChar c) = true := isJsSpace_of_not_word c hw₀
      constructor
      · intro acc
        by_cases h : acc.isEmpty
        · have : acc = [] := by
            cases acc with
            | nil => rfl
            | cons a t => simp [List.isEmpty] at h
          subst this
          simp only [List.map_cons, splitWsAux, hs, if_true, wordRunsAux,
            hw₀, Bool.false_eq_true, if_false, List.isEmpty_nil,
            List.reverse_nil]
          rw [List.filter_cons]
          simp only [lengthOk, List.length_nil]
          norm_num
          exact ih.2
        · have hne : acc ≠ [] := by
            intro hc; subst hc; simp [List.isEmpty] at h
          simp only [List.map_cons, splitWsAux, hs, if_true, wordRunsAux,
            hw₀, Bool.false_eq_true, if_false, h]
          rw [List.filter_cons, List.filter_cons]
          rw [ih.2]
      · simp only [List.map_cons, splitWsAux, hs, if_true, wordRunsAux,
          hw₀, Bool.false_eq_true, if_false, List.isEmpty_nil, if_true]
        exact ih.2

/-! ### Index data model (engine.js lines 42-55, 216-268)

String lengths (`content.length`, preview truncation) are counted in
characters rather than UTF-16 units; the two agree on the ASCII data all
claims are about and no claim depends on the difference. -/

/-- One entry of `index.documents` as written by `addDocument`
(engine.js lines 225-233).  `content` holds the bounded preview
`content.substring(0, 10000)`. -/
structure Document where
  filename : String
  content : String
  modified : Int
  size : Nat
  extension : String
  wordCount : Nat
  uniqueWords : Nat
deriving DecidableEq

/-- The index aggregate (engine.js lines 42-51).  Posting counts are
naturals, `docFreq` values and `totalDocs` integers (JS numbers under
increment and decrement only). -/
structure Index where
  version : Nat
  documents : List (String × Document)
  invertedIndex : List (String × List (String × Nat))
  docFreq : List (String × Int)
  totalDocs : Int
  lastUpdated : Option String
deriving DecidableEq

/-- `createEmptyIndex()` (engine.js lines 42-51). -/
def createEmptyIndex : Index :=
  { version := 1
    documents := []
    invertedIndex := []
    docFreq := []
    totalDocs := 0
    lastUpdated := none }

/-- `loadIndex()` (engine.js lines 31-40).  The backing file is abstracted
as `none` when `INDEX_PATH` does not exist, `some none` when it exists but
`JSON.parse` throws, and `some (some stored)` when it parses. -/
def loadIndex (disk : Option (Option Index)) : Index :=
  match disk with
  | none => createEmptyIndex
  | some none => createEmptyIndex
  | some (some stored) => stored

/-- One step of the `wordCounts` accumulation
(`wordCounts[token] = (wordCounts[token] || 0) + 1`, engine.js line 221). -/
def bump (m : List (String × Nat)) (w : String) : List (String × Nat) :=
  aset m w ((aget m w).getD 0 + 1)

/-- The inverted-index update of `addDocument` for one `(word, count)`
pair (engine.js lines 236-245), threading `(invertedIndex, docFreq)`.
When `docFreq[word]` would be incremented while absent, JS would store
`NaN`; that branch is unreachable whenever `docFreq` and `invertedIndex`
have the same keys (the case split keeps the definition total). -/
def addPostingStep (p : String)
    (st : List (String × List (String × Nat)) × List (String × Int))
    (e : String × Nat) :
    List (String × List (String × Nat)) × List (String × Int) :=
  let inv := st.1
  let df := st.2
  let word := e.1
  let count := e.2
  let inv₁ := match aget inv word with
    | some _ => inv
    | none => aset inv word []
  let df₁ := match aget inv word with
    | some _ => df
    | none => aset df word 0
  let docs := (aget inv₁ word).getD []
  let isNew : Bool := match aget docs p with
    | none => true
    | some c => decide (c = 0)
  let df₂ : List (String × Int) := cond isNew
    (match aget df₁ word with
      | some v => aset df₁ word (v + 1)
      | none => df₁)
    df₁
  (aset inv₁ word (aset docs p count), df₂)

/-- `addDocument(filePath, filename, content, modified, extension)`
(engine.js lines 216-248). -/
def addDocument (idx : Index) (filePath filename content : String)
    (modified : Int) (extension : String) : Index :=
  let tokens := tokenize content
  let wordCounts := tokens.foldl bump []
  let doc : Document :=
    { filename := filename
      -- `content.substring(0, 10000)`, written on the character list so
      -- that concrete instances reduce within the kernel's budget
      content := (content.toList.take 10000).asString
      modified := modified
      size := content.length
      extension := extension
      wordCount := tokens.length
      uniqueWords := wordCounts.length }
  let st := wordCounts.foldl (addPostingStep filePath)
    (idx.invertedIndex, idx.docFreq)
  { idx with
    documents := aset idx.documents filePath doc
    invertedIndex := st.1
    docFreq := st.2
    totalDocs := idx.totalDocs + 1 }

/-- One entry of the `removeDocument` loop over
`Object.entries(invertedIndex)` (engine.js lines 255-264), rebuilding the
inverted index in order and threading `docFreq`.  `if (docs[filePath])`
is the JS truthiness test, so a stored count of `0` leaves the posting
untouched.  When `docFreq[word]` is absent JS would decrement it to `NaN`
(which fails `<= 0`); that unreachable-under-the-invariant case keeps
`docFreq` unchanged here. -/
def removePostingStep (p : String)
    (st : List (String × List (String × Nat)) × List (String × Int))
    (e : String × List (String × Nat)) :
    List (String × List (String × Nat)) × List (String × Int) :=
  let inv := st.1
  let df := st.2
  let word := e.1
  let docs := e.2
  match aget docs p with
  | none => (inv ++ [(word, docs)], df)
  | some c =>
    if c = 0 then (inv ++ [(word, docs)], df)
    else
      let docs₂ := adel docs p
      match aget df word with
      | some v =>
        if v - 1 ≤ 0 then (inv, adel df word)
        else (inv ++ [(word, docs₂)], aset df word (v - 1))
      | none => (inv ++ [(word, docs₂)], df)

/-- `removeDocument(filePath)` (engine.js lines 250-268). -/
def removeDocument (idx : Index) (p : String) : Index :=
  match aget idx.documents p with
  | none => idx
  | some _ =>
    let st := idx.invertedIndex.foldl (removePostingStep p)
      ([], idx.docFreq)
    { idx with
      documents := adel idx.documents p
      invertedIndex := st.1
      docFreq := st.2
      totalDocs := idx.totalDocs - 1 }

/-! ### Further association-list lemmas -/

theorem aget_mem {α : Type} {m : List (String × α)} {k : String} {v : α}
    (h : aget m k = some v) : (k, v) ∈ m := by
  induction m with
  | nil => simp [aget] at h
  | cons e t ih =>
    obtain ⟨k₁, v₁⟩ := e
    by_cases h₁ : k₁ = k
    · subst h₁
      simp only [aget, if_pos trivial, Option.some.injEq] at h
      rw [h]
      exact List.mem_cons_self _ _
    · simp only [aget, if_neg h₁] at h
      exact List.mem_cons_of_mem _ (ih h)

theorem mem_aget_of_nodup {α : Type} {m : List (String × α)}
    {e : String × α} (hnd : (akeys m).Nodup) (h : e ∈ m) :
    aget m e.1 = some e.2 := by
  induction m with
  | nil => simp at h
  | cons e₁ t ih =>
    obtain ⟨k₁, v₁⟩ := e₁
    simp only [akeys, List.map_cons, List.nodup_cons] at hnd
    rcases List.mem_cons.1 h with h | h
    · subst h
      simp [aget]
    · have hne : k₁ ≠ e.1 := by
        intro hc
        exact hnd.1 (hc ▸ List.mem_map_of_mem Prod.fst h)
      simp only [aget, if_neg hne]
      exact ih hnd.2 h

theorem isSome_aget_iff_mem_akeys {α : Type} (m : List (String × α))
    (k : String) : (aget m k).isSome ↔ k ∈ akeys m := by
  induction m with
  | nil => simp [aget, akeys]
  | cons e t ih =>
    obtain ⟨k₁, v₁⟩ := e
    by_cases h : k₁ = k
    · subst h; simp [aget, akeys]
    · simp [aget, akeys, h, Ne.symm h, ih]

theorem length_aset_isSome {α : Type} (m : List (String × α)) (k : String)
    (v : α) (h : (aget m k).isSome) : (aset m k v).length = m.length := by
  induction m with
  | nil => simp [aget] at h
  | cons e t ih =>
    obtain ⟨k₁, v₁⟩ := e
    by_cases h₁ : k₁ = k
    · simp [aset, h₁]
    · simp only [aget, if_neg h₁] at h
      simp [aset, if_neg h₁, ih h]

theorem length_aset_none {α : Type} (m : List (String × α)) (k : String)
    (v : α) (h : aget m k = none) : (aset m k v).length = m.length + 1 := by
  induction m with
  | nil => simp [aset]
  | cons e t ih =>
    obtain ⟨k₁, v₁⟩ := e
    by_cases h₁ : k₁ = k
    · simp [aget, h₁] at h
    · simp only [aget, if_neg h₁] at h
      simp [aset, if_neg h₁, ih h]

theorem mem_of_mem_aset {α : Type} {m : List (String × α)} {k : String}
    {v : α} {e : String × α} (h : e ∈ aset m k v) :
    e ∈ m ∨ e = (k, v) := by
  induction m with
  | nil => simp [aset] at h; right; exact h
  | cons e₁ t ih =>
    obtain ⟨k₁, v₁⟩ := e₁
    by_cases h₁ : k₁ = k
    · subst h₁
      simp only [aset, if_pos rfl] at h
      rcases List.mem_cons.1 h with h | h
      · right; exact h
      · left; exact List.mem_cons_of_mem _ h
    · simp only [aset, if_neg h₁] at h
      rcases List.mem_cons.1 h with h | h
      · left; exact h ▸ List.mem_cons_self _ _
      · rcases ih h with h | h
        · left; exact List.mem_cons_of_mem _ h
        · right; exact h

theorem mem_of_mem_adel {α : Type} {m : List (String × α)} {k : String}
    {e : String × α} (h : e ∈ adel m k) : e ∈ m :=
  List.mem_of_mem_filter h

theorem mem_aset_cases {α : Type} {m : List (String × α)} {k : String}
    {v : α} {e : String × α} (hnd : (akeys m).Nodup)
    (h : e ∈ aset m k v) : (e ∈ m ∧ e.1 ≠ k) ∨ e = (k, v) := by
  induction m with
  | nil =>
    simp [aset] at h
    right
    exact h
  | cons e₁ t ih =>
    obtain ⟨k₁, v₁⟩ := e₁
    simp only [akeys, List.map_cons, List.nodup_cons] at hnd
    by_cases h₁ : k₁ = k
    · subst h₁
      simp only [aset, if_pos trivial] at h
      rcases List.mem_cons.1 h with h | h
      · right
        exact h
      · left
        refine ⟨List.mem_cons_of_mem _ h, ?_⟩
        intro hc
        exact hnd.1 (hc ▸ List.mem_map_of_mem Prod.fst h)
    · simp only [aset, if_neg h₁] at h
      rcases List.mem_cons.1 h with h | h
      · left
        constructor
        · exact h ▸ List.mem_cons_self _ _
        · rw [h]
          exact h₁
      · rcases ih hnd.2 h with ⟨hm, hk⟩ | he
        · left
          exact ⟨List.mem_cons_of_mem _ hm, hk⟩
        · right
          exact he

theorem aset_ne_nil {α : Type} (m : List (String × α)) (k : String)
    (v : α) : aset m k v ≠ [] := by
  cases m with
  | nil => simp [aset]
  | cons e t =>
    obtain ⟨k₁, v₁⟩ := e
    by_cases h : k₁ = k <;> simp [aset, h]

/-! ### The docFreq / posting invariants -/

/-- JS objects cannot hold a key twice: every map in the state has
distinct keys, and so does every posting map inside the inverted index.
This is a well-formedness fact of the representation, true of every state
the engine (or a JSON file) can denote. -/
def MapsWf (idx : Index) : Prop :=
  (akeys idx.documents).Nodup ∧ (akeys idx.invertedIndex).Nodup ∧
  (akeys idx.docFreq).Nodup ∧
  ∀ e ∈ idx.invertedIndex, (akeys e.2).Nodup

instance (idx : Index) : Decidable (MapsWf idx) := by
  unfold MapsWf; infer_instance

/-- The invariant of claim C1 exactly as stated: `docFreq` and
`invertedIndex` have the same term keys and `docFreq[T]` is the number of
postings under `T`. -/
def DocFreqInv (idx : Index) : Prop :=
  (∀ t ∈ akeys idx.invertedIndex, t ∈ akeys idx.docFreq) ∧
  (∀ t ∈ akeys idx.docFreq, t ∈ akeys idx.invertedIndex) ∧
  ∀ e ∈ idx.invertedIndex, aget idx.docFreq e.1 = some ((e.2.length : Int))

instance (idx : Index) : Decidable (DocFreqInv idx) := by
  unfold DocFreqInv; infer_instance

/-- Every stored posting count is positive.  Counts written by
`addDocument` always are (they count token occurrences), but a parsed
index file could hold `0`, and the truthiness tests
`if (!invertedIndex[word][filePath])` / `if (docs[filePath])` treat such
a posting as absent. -/
def PosCounts (idx : Index) : Prop :=
  ∀ e ∈ idx.invertedIndex, ∀ q ∈ e.2, 0 < q.2

instance (idx : Index) : Decidable (PosCounts idx) := by
  unfold PosCounts; infer_instance

/-- No term's posting map is empty.  Together with `DocFreqInv` this is
the claim's "no zero or dangling entries" clause: a term whose posting
set becomes empty must have been deleted from both `invertedIndex` and
`docFreq`, so no term key maps to an empty posting map and (since
`docFreq[T]` counts the postings of a nonempty map) no `docFreq` entry
is zero. -/
def NonemptyPostings (idx : Index) : Prop :=
  ∀ e ∈ idx.invertedIndex, e.2 ≠ []

instance (idx : Index) : Decidable (NonemptyPostings idx) := by
  unfold NonemptyPostings; infer_instance

/-- Pointwise restatement of the invariant on an
`(invertedIndex, docFreq)` pair, used while reasoning about the
posting-update folds. -/
def PairOk (inv : List (String × List (String × Nat)))
    (df : List (String × Int)) : Prop :=
  ((akeys inv).Nodup ∧ (akeys df).Nodup) ∧
  (∀ w, (aget inv w).isSome ↔ (aget df w).isSome) ∧
  (∀ w docs, aget inv w = some docs →
    aget df w = some ((docs.length : Int)) ∧ (akeys docs).Nodup ∧
    ∀ q ∈ docs, 0 < q.2)

theorem pairOk_iff (idx : Index) (hwf : MapsWf idx) :
    (DocFreqInv idx ∧ PosCounts idx) ↔
      PairOk idx.invertedIndex idx.docFreq := by
  obtain ⟨hd, hinv, hdf, hdocs⟩ := hwf
  constructor
  · rintro ⟨⟨h₁, h₂, h₃⟩, hpos⟩
    refine ⟨⟨hinv, hdf⟩, ?_, ?_⟩
    · intro w
      rw [isSome_aget_iff_mem_akeys, isSome_aget_iff_mem_akeys]
      exact ⟨h₁ w, h₂ w⟩
    · intro w docs hw
      have hmem : (w, docs) ∈ idx.invertedIndex := aget_mem hw
      exact ⟨h₃ _ hmem, hdocs _ hmem, hpos _ hmem⟩
  · rintro ⟨_, hsome, hval⟩
    refine ⟨⟨?_, ?_, ?_⟩, ?_⟩
    · intro t ht
      rw [← isSome_aget_iff_mem_akeys] at ht ⊢
      exact (hsome t).1 ht
    · intro t ht
      rw [← isSome_aget_iff_mem_akeys] at ht ⊢
      exact (hsome t).2 ht
    · intro e he
      exact (hval e.1 e.2 (mem_aget_of_nodup hinv he)).1
    · intro e he
      exact (hval e.1 e.2 (mem_aget_of_nodup hinv he)).2.2

theorem nodup_akeys_of_pairOk_inv
    {inv : List (String × List (String × Nat))}
    {df : List (String × Int)} (h : PairOk inv df) :
    (akeys inv).Nodup := h.1.1

/-- `addPostingStep` preserves the pointwise invariant when the inserted
count is positive. -/
theorem addPostingStep_pairOk {p : String}
    {inv : List (String × List (String × Nat))}
    {df : List (String × Int)} {word : String} {count : Nat}
    (h : PairOk inv df) (hc : 0 < count) :
    PairOk (addPostingStep p (inv, df) (word, count)).1
      (addPostingStep p (inv, df) (word, count)).2 := by
  obtain ⟨⟨hndi, hndd⟩, hsome, hval⟩ := h
  unfold addPostingStep
  cases hiw : aget inv word with
  | none =>
    have hdw : aget df word = none := by
      cases hdw : aget df word with
      | none => rfl
      | some v =>
        have := (hsome word).2 (by rw [hdw]; rfl)
        rw [hiw] at this; cases this
    simp only [hiw]
    have hGet : aget (aset inv word []) word = some [] :=
      aget_aset_self _ _ _
    simp only [hGet, Option.getD_some, aget]
    have hdf1 : aget (aset df word 0) word = some 0 := aget_aset_self _ _ _
    simp only [hdf1, cond_true]
    refine ⟨⟨?_, ?_⟩, ?_, ?_⟩
    · exact nodup_akeys_aset _ _ _ (nodup_akeys_aset _ _ _ hndi)
    · exact nodup_akeys_aset _ _ _ (nodup_akeys_aset _ _ _ hndd)
    · intro w
      by_cases hww : word = w
      · subst hww
        rw [aget_aset_self, aget_aset_self]
        simp
      · rw [aget_aset_ne _ _ _ _ hww, aget_aset_ne _ _ _ _ hww,
          aget_aset_ne _ _ _ _ hww, aget_aset_ne _ _ _ _ hww]
        exact hsome w
    · intro w docs hw
      by_cases hww : word = w
      · subst hww
        rw [aget_aset_self] at hw
        cases hw
        refine ⟨by rw [aget_aset_self]; simp [aset], by simp [aset, akeys], ?_⟩
        intro q hq
        simp only [aset, List.mem_singleton] at hq
        rw [hq]
        exact hc
      · rw [aget_aset_ne _ _ _ _ hww] at hw
        rw [aget_aset_ne _ _ _ _ hww] at hw
        rw [aget_aset_ne _ _ _ _ hww, aget_aset_ne _ _ _ _ hww]
        exact hval w docs hw
  | some docs =>
    obtain ⟨hdw, hnodocs, hposdocs⟩ := hval word docs hiw
    simp only [hiw, Option.getD_some]
    cases hdp : aget docs p with
    | none =>
      simp only [hdp, hdw, cond_true]
      refine ⟨⟨?_, ?_⟩, ?_, ?_⟩
      · exact nodup_akeys_aset _ _ _ hndi
      · exact nodup_akeys_aset _ _ _ hndd
      · intro w
        by_cases hww : word = w
        · subst hww
          rw [aget_aset_self, aget_aset_self]; simp
        · rw [aget_aset_ne _ _ _ _ hww, aget_aset_ne _ _ _ _ hww]
          exact hsome w
      · intro w docs₂ hw
        by_cases hww : word = w
        · subst hww
          rw [aget_aset_self] at hw
          cases hw
          rw [aget_aset_self]
          refine ⟨?_, nodup_akeys_aset _ _ _ hnodocs, ?_⟩
          · rw [length_aset_none _ _ _ hdp]
            push_cast
            rfl
          · intro q hq
            rcases mem_of_mem_aset hq with hq | hq
            · exact hposdocs q hq
            · rw [hq]; exact hc
        · rw [aget_aset_ne _ _ _ _ hww] at hw
          rw [aget_aset_ne _ _ _ _ hww]
          exact hval w docs₂ hw
    | some c₀ =>
      have hc₀ : 0 < c₀ := hposdocs _ (aget_mem hdp)
      have : (decide (c₀ = 0)) = false := by
        simp; omega
      simp only [hdp, this, cond_false]
      refine ⟨⟨?_, ?_⟩, ?_, ?_⟩
      · exact nodup_akeys_aset _ _ _ hndi
      · exact hndd
      · intro w
        by_cases hww : word = w
        · subst hww
          rw [aget_aset_self]
          simp only [Option.isSome_some, true_iff]
          rw [hdw]; rfl
        · rw [aget_aset_ne _ _ _ _ hww]
          exact hsome w
      · intro w docs₂ hw
        by_cases hww : word = w
        · subst hww
          rw [aget_aset_self] at hw
          cases hw
          have hl : (aset docs p count).length = docs.length :=
            length_aset_isSome _ _ _ (by rw [hdp]; rfl)
          rw [hl]
          refine ⟨hdw, nodup_akeys_aset _ _ _ hnodocs, ?_⟩
          intro q hq
          rcases mem_of_mem_aset hq with hq | hq
          · exact hposdocs q hq
          · rw [hq]; exact hc
        · rw [aget_aset_ne _ _ _ _ hww] at hw
          exact hval w docs₂ hw

theorem foldl_addPostingStep_pairOk (p : String)
    (wcs : List (String × Nat)) :
    ∀ inv df, PairOk inv df → (∀ q ∈ wcs, 0 < q.2) →
      PairOk (wcs.foldl (addPostingStep p) (inv, df)).1
        (wcs.foldl (addPostingStep p) (inv, df)).2 := by
  induction wcs with
  | nil => intro inv df h _; exact h
  | cons e t ih =>
    intro inv df h hpos
    obtain ⟨word, count⟩ := e
    have hstep := @addPostingStep_pairOk p inv df word count h
      (hpos _ (List.mem_cons_self _ _))
    have := ih (addPostingStep p (inv, df) (word, count)).1
      (addPostingStep p (inv, df) (word, count)).2 hstep
      (fun q hq => hpos q (List.mem_cons_of_mem _ hq))
    simpa using this

theorem wordCounts_pos (tokens : List String) :
    ∀ m, (∀ q ∈ m, 0 < q.2) → ∀ q ∈ tokens.foldl bump m, 0 < q.2 := by
  induction tokens with
  | nil => intro m hm q hq; exact hm q hq
  | cons w t ih =>
    intro m hm q hq
    refine ih (bump m w) ?_ q hq
    intro q₂ hq₂
    rcases mem_of_mem_aset hq₂ with hq₂ | hq₂
    · exact hm q₂ hq₂
    · rw [hq₂]; simp

/-- `addDocument` preserves well-formedness, the docFreq invariant and
count positivity, from any state satisfying all three. -/
theorem addDocument_preserves (idx : Index)
    (filePath filename content : String) (modified : Int)
    (extension : String) (hwf : MapsWf idx) (hinv : DocFreqInv idx)
    (hpos : PosCounts idx) :
    MapsWf (addDocument idx filePath filename content modified extension) ∧
    DocFreqInv
      (addDocument idx filePath filename content modified extension) ∧
    PosCounts
      (addDocument idx filePath filename content modified extension) := by
  have hpair : PairOk idx.invertedIndex idx.docFreq :=
    (pairOk_iff idx hwf).1 ⟨hinv, hpos⟩
  have hcnt : ∀ q ∈ (tokenize content).foldl bump [], 0 < q.2 :=
    wordCounts_pos _ [] (by simp)
  have hfold := foldl_addPostingStep_pairOk filePath
    ((tokenize content).foldl bump []) idx.invertedIndex idx.docFreq
    hpair hcnt
  set result :=
    addDocument idx filePath filename content modified extension with hres
  have hri : result.invertedIndex =
      (((tokenize content).foldl bump []).foldl (addPostingStep filePath)
        (idx.invertedIndex, idx.docFreq)).1 := rfl
  have hrd : result.docFreq =
      (((tokenize content).foldl bump []).foldl (addPostingStep filePath)
        (idx.invertedIndex, idx.docFreq)).2 := rfl
  have hpair₂ : PairOk result.invertedIndex result.docFreq := by
    rw [hri, hrd]; exact hfold
  have hwf₂ : MapsWf result := by
    refine ⟨?_, hpair₂.1.1, hpair₂.1.2, ?_⟩
    · have : result.documents = aset idx.documents filePath _ := rfl
      rw [this]
      exact nodup_akeys_aset _ _ _ hwf.1
    · intro e he
      exact (hpair₂.2.2 e.1 e.2
        (mem_aget_of_nodup hpair₂.1.1 he)).2.1
  have := (pairOk_iff result hwf₂).2 hpair₂
  exact ⟨hwf₂, this.1, this.2⟩

/-! ### Characterizing `removeDocument` under the invariant -/

/-- What one inverted-index entry becomes when document `p` is removed:
untouched without a `p` posting, dropped when `p` was its only posting,
otherwise kept with the `p` posting deleted.  (Valid for states where
counts are positive and `docFreq[word]` equals the posting count.) -/
def removeEntryResult (p : String) (e : String × List (String × Nat)) :
    Option (String × List (String × Nat)) :=
  match aget e.2 p with
  | none => some e
  | some _ => if e.2.length = 1 then none else some (e.1, adel e.2 p)

/-- The corresponding `docFreq` change for one entry. -/
def removeDfStep (p : String) (df : List (String × Int))
    (e : String × List (String × Nat)) : List (String × Int) :=
  match aget e.2 p with
  | none => df
  | some _ =>
    if e.2.length = 1 then adel df e.1
    else aset df e.1 ((e.2.length : Int) - 1)

theorem removeEntryResult_no_posting (p w : String)
    (docs : List (String × Nat)) (h : aget docs p = none) :
    removeEntryResult p (w, docs) = some (w, docs) := by
  simp [removeEntryResult, h]

theorem removeEntryResult_last (p w : String)
    (docs : List (String × Nat)) (c : Nat) (h : aget docs p = some c)
    (h1 : docs.length = 1) : removeEntryResult p (w, docs) = none := by
  simp [removeEntryResult, h, h1]

theorem removeEntryResult_shrink (p w : String)
    (docs : List (String × Nat)) (c : Nat) (h : aget docs p = some c)
    (h1 : docs.length ≠ 1) :
    removeEntryResult p (w, docs) = some (w, adel docs p) := by
  simp [removeEntryResult, h, h1]

theorem foldl_removePostingStep (p : String) :
    ∀ (L : List (String × List (String × Nat)))
      (acc : List (String × List (String × Nat)))
      (df : List (String × Int)),
      (L.map Prod.fst).Nodup →
      (∀ e ∈ L, aget df e.1 = some ((e.2.length : Int))) →
      (∀ e ∈ L, ∀ q ∈ e.2, 0 < q.2) →
      L.foldl (removePostingStep p) (acc, df) =
        (acc ++ L.filterMap (removeEntryResult p),
         L.foldl (removeDfStep p) df) := by
  intro L
  induction L with
  | nil => intro acc df _ _ _; simp
  | cons e t ih =>
    intro acc df hnd hdf hpos
    obtain ⟨w, docs⟩ := e
    simp only [List.map_cons, List.nodup_cons] at hnd
    have hdfw : aget df w = some ((docs.length : Int)) :=
      hdf _ (List.mem_cons_self _ _)
    cases hdp : aget docs p with
    | none =>
      have hstep : removePostingStep p (acc, df) (w, docs) =
          (acc ++ [(w, docs)], df) := by
        simp [removePostingStep, hdp]
      have hres : removeEntryResult p (w, docs) = some (w, docs) := by
        simp [removeEntryResult, hdp]
      have hdfs : removeDfStep p df (w, docs) = df := by
        simp [removeDfStep, hdp]
      simp only [List.foldl_cons, hstep, List.filterMap_cons, hres, hdfs]
      rw [ih (acc ++ [(w, docs)]) df hnd.2
        (fun e he => hdf e (List.mem_cons_of_mem _ he))
        (fun e he => hpos e (List.mem_cons_of_mem _ he))]
      simp
    | some c =>
      have hc : 0 < c := hpos _ (List.mem_cons_self _ _) _ (aget_mem hdp)
      have hlen : 0 < docs.length := List.length_pos.2 (by
        intro hcon
        rw [hcon] at hdp
        simp [aget] at hdp)
      by_cases h1 : docs.length = 1
      · have hstep : removePostingStep p (acc, df) (w, docs) =
            (acc, adel df w) := by
          simp only [removePostingStep, hdp, hdfw]
          rw [if_neg (by omega)]
          rw [if_pos (by rw [h1]; norm_num)]
        have hres : removeEntryResult p (w, docs) = none := by
          simp [removeEntryResult, hdp, h1]
        have hdfs : removeDfStep p df (w, docs) = adel df w := by
          simp [removeDfStep, hdp, h1]
        simp only [List.foldl_cons, hstep, List.filterMap_cons, hres, hdfs]
        rw [ih acc (adel df w) hnd.2 ?_
          (fun e he => hpos e (List.mem_cons_of_mem _ he))]
        intro e he
        rw [aget_adel_ne _ _ _ (by
          intro hcon
          exact hnd.1 (hcon ▸ List.mem_map_of_mem Prod.fst he))]
        exact hdf e (List.mem_cons_of_mem _ he)
      · have hstep : removePostingStep p (acc, df) (w, docs) =
            (acc ++ [(w, adel docs p)],
              aset df w ((docs.length : Int) - 1)) := by
          simp only [removePostingStep, hdp, hdfw]
          rw [if_neg (by omega)]
          rw [if_neg (by
            intro hcon
            have : docs.length = 1 := by omega
            exact h1 this)]
        have hres : removeEntryResult p (w, docs) =
            some (w, adel docs p) := by
          simp [removeEntryResult, hdp, h1]
        have hdfs : removeDfStep p df (w, docs) =
            aset df w ((docs.length : Int) - 1) := by
          simp [removeDfStep, hdp, h1]
        simp only [List.foldl_cons, hstep, List.filterMap_cons, hres, hdfs]
        rw [ih (acc ++ [(w, adel docs p)])
          (aset df w ((docs.length : Int) - 1)) hnd.2 ?_
          (fun e he => hpos e (List.mem_cons_of_mem _ he))]
        · simp
        · intro e he
          rw [aget_aset_ne _ _ _ _ (by
            intro hcon
            exact hnd.1 (hcon ▸ List.mem_map_of_mem Prod.fst he))]
          exact hdf e (List.mem_cons_of_mem _ he)

theorem removeDocument_eq (idx : Index) (p : String) (d : Document)
    (hdoc : aget idx.documents p = some d)
    (hnd : (akeys idx.invertedIndex).Nodup)
    (hdf : ∀ e ∈ idx.invertedIndex,
      aget idx.docFreq e.1 = some ((e.2.length : Int)))
    (hpos : ∀ e ∈ idx.invertedIndex, ∀ q ∈ e.2, 0 < q.2) :
    removeDocument idx p =
      { idx with
        documents := adel idx.documents p
        invertedIndex :=
          idx.invertedIndex.filterMap (removeEntryResult p)
        docFreq :=
          idx.invertedIndex.foldl (removeDfStep p) idx.docFreq
        totalDocs := idx.totalDocs - 1 } := by
  unfold removeDocument
  rw [hdoc]
  have h := foldl_removePostingStep p idx.invertedIndex [] idx.docFreq
    hnd hdf hpos
  simp only [h, List.nil_append]

theorem akeys_filterMap_sublist (p : String)
    (L : List (String × List (String × Nat))) :
    (akeys (L.filterMap (removeEntryResult p))).Sublist (akeys L) := by
  induction L with
  | nil => simp [akeys]
  | cons e t ih =>
    obtain ⟨w, docs⟩ := e
    cases hf : removeEntryResult p (w, docs) with
    | none =>
      simp only [List.filterMap_cons, hf, akeys, List.map_cons]
      exact ih.cons _
    | some e₂ =>
      have hkey : e₂.1 = w := by
        unfold removeEntryResult at hf
        cases hdp : aget docs p with
        | none => simp [hdp] at hf; rw [← hf]
        | some c =>
          simp only [hdp] at hf
          by_cases h1 : docs.length = 1
          · simp [h1] at hf
          · simp only [if_neg h1, Option.some.injEq] at hf
            rw [← hf]
      simp only [List.filterMap_cons, hf, akeys, List.map_cons, hkey]
      exact ih.cons₂ _

theorem aget_filterMap_removeEntry (p : String) :
    ∀ (L : List (String × List (String × Nat))),
      (L.map Prod.fst).Nodup → ∀ w,
      aget (L.filterMap (removeEntryResult p)) w =
        match aget L w with
        | none => none
        | some docs =>
          match removeEntryResult p (w, docs) with
          | none => none
          | some e₂ => some e₂.2 := by
  intro L
  induction L with
  | nil => intro _ w; simp [aget]
  | cons e t ih =>
    intro hnd w
    obtain ⟨w₁, docs₁⟩ := e
    simp only [List.map_cons, List.nodup_cons] at hnd
    by_cases hww : w₁ = w
    · subst hww
      cases hf : removeEntryResult p (w₁, docs₁) with
      | none =>
        simp only [List.filterMap_cons, hf, aget, if_pos trivial]
        have hnotin : w₁ ∉ akeys (t.filterMap (removeEntryResult p)) :=
          fun hmem => hnd.1 ((akeys_filterMap_sublist p t).mem hmem)
        rw [← isSome_aget_iff_mem_akeys] at hnotin
        cases hg : aget (t.filterMap (removeEntryResult p)) w₁ with
        | none => rfl
        | some v => rw [hg] at hnotin; simp at hnotin
      | some e₂ =>
        have hkey : e₂.1 = w₁ := by
          unfold removeEntryResult at hf
          cases hdp : aget docs₁ p with
          | none => simp [hdp] at hf; rw [← hf]
          | some c =>
            simp only [hdp] at hf
            by_cases h1 : docs₁.length = 1
            · simp [h1] at hf
            · simp only [if_neg h1, Option.some.injEq] at hf
              rw [← hf]
        simp only [List.filterMap_cons, hf, aget, hkey, if_pos trivial]
    · cases hf : removeEntryResult p (w₁, docs₁) with
      | none =>
        simp only [List.filterMap_cons, hf, aget, if_neg hww]
        exact ih hnd.2 w
      | some e₂ =>
        have hkey : e₂.1 = w₁ := by
          unfold removeEntryResult at hf
          cases hdp : aget docs₁ p with
          | none => simp [hdp] at hf; rw [← hf]
          | some c =>
            simp only [hdp] at hf
            by_cases h1 : docs₁.length = 1
            · simp [h1] at hf
            · simp only [if_neg h1, Option.some.injEq] at hf
              rw [← hf]
        simp only [List.filterMap_cons, hf, aget, hkey, if_neg hww]
        exact ih hnd.2 w

theorem aget_removeDfStep_ne (p : String) (df : List (String × Int))
    (e : String × List (String × Nat)) (w : String) (h : e.1 ≠ w) :
    aget (removeDfStep p df e) w = aget df w := by
  unfold removeDfStep
  cases aget e.2 p with
  | none => rfl
  | some c =>
    by_cases h1 : e.2.length = 1
    · simp only [h1, if_pos trivial]
      exact aget_adel_ne _ _ _ h
    · simp only [if_neg h1]
      exact aget_aset_ne _ _ _ _ h

theorem aget_foldl_removeDfStep_not_mem (p : String) :
    ∀ (L : List (String × List (String × Nat)))
      (df : List (String × Int)) (w : String),
      w ∉ L.map Prod.fst →
      aget (L.foldl (removeDfStep p) df) w = aget df w := by
  intro L
  induction L with
  | nil => intro df w _; rfl
  | cons e t ih =>
    intro df w hw
    simp only [List.map_cons, List.mem_cons, not_or] at hw
    rw [List.foldl_cons, ih _ _ hw.2,
      aget_removeDfStep_ne _ _ _ _ (fun hc => hw.1 hc.symm)]

theorem aget_foldl_removeDfStep (p : String) :
    ∀ (L : List (String × List (String × Nat)))
      (df : List (String × Int)),
      (L.map Prod.fst).Nodup → ∀ w,
      aget (L.foldl (removeDfStep p) df) w =
        match aget L w with
        | none => aget df w
        | some docs =>
          match aget docs p with
          | none => aget df w
          | some _ =>
            if docs.length = 1 then none
            else some ((docs.length : Int) - 1) := by
  intro L
  induction L with
  | nil => intro df _ w; simp [aget]
  | cons e t ih =>
    intro df hnd w
    obtain ⟨w₁, docs₁⟩ := e
    simp only [List.map_cons, List.nodup_cons] at hnd
    by_cases hww : w₁ = w
    · subst hww
      rw [List.foldl_cons, aget_foldl_removeDfStep_not_mem p t _ _ hnd.1]
      simp only [aget, if_pos trivial]
      unfold removeDfStep
      cases hdp : aget docs₁ p with
      | none => rfl
      | some c =>
        by_cases h1 : docs₁.length = 1
        · simp only [h1, if_pos trivial]
          exact aget_adel_self _ _
        · simp only [if_neg h1]
          exact aget_aset_self _ _ _
    · rw [List.foldl_cons, ih _ hnd.2 w,
        aget_removeDfStep_ne _ _ _ _ hww]
      simp only [aget, if_neg hww]

/-- The posting stored for document `q` under term `w`. -/
def postingOf (idx : Index) (w q : String) : Option Nat :=
  (aget idx.invertedIndex w).bind (fun docs => aget docs q)

theorem aget_inv_remove_of_none (p : String)
    (L : List (String × List (String × Nat)))
    (hnd : (L.map Prod.fst).Nodup) (w : String) (hw : aget L w = none) :
    aget (L.filterMap (removeEntryResult p)) w = none := by
  have h := aget_filterMap_removeEntry p L hnd w
  rw [hw] at h
  simpa using h

theorem aget_inv_remove_no_posting (p : String)
    (L : List (String × List (String × Nat)))
    (hnd : (L.map Prod.fst).Nodup) (w : String)
    (docs : List (String × Nat)) (hw : aget L w = some docs)
    (hdp : aget docs p = none) :
    aget (L.filterMap (removeEntryResult p)) w = some docs := by
  have h := aget_filterMap_removeEntry p L hnd w
  rw [hw] at h
  simp only [removeEntryResult_no_posting p w docs hdp] at h
  simpa using h

theorem aget_inv_remove_last (p : String)
    (L : List (String × List (String × Nat)))
    (hnd : (L.map Prod.fst).Nodup) (w : String)
    (docs : List (String × Nat)) (c : Nat) (hw : aget L w = some docs)
    (hdp : aget docs p = some c) (h1 : docs.length = 1) :
    aget (L.filterMap (removeEntryResult p)) w = none := by
  have h := aget_filterMap_removeEntry p L hnd w
  rw [hw] at h
  simp only [removeEntryResult_last p w docs c hdp h1] at h
  simpa using h

theorem aget_inv_remove_shrink (p : String)
    (L : List (String × List (String × Nat)))
    (hnd : (L.map Prod.fst).Nodup) (w : String)
    (docs : List (String × Nat)) (c : Nat) (hw : aget L w = some docs)
    (hdp : aget docs p = some c) (h1 : docs.length ≠ 1) :
    aget (L.filterMap (removeEntryResult p)) w = some (adel docs p) := by
  have h := aget_filterMap_removeEntry p L hnd w
  rw [hw] at h
  simp only [removeEntryResult_shrink p w docs c hdp h1] at h
  simpa using h

theorem aget_df_remove_of_none (p : String)
    (L : List (String × List (String × Nat)))
    (df : List (String × Int)) (hnd : (L.map Prod.fst).Nodup)
    (w : String) (hw : aget L w = none) :
    aget (L.foldl (removeDfStep p) df) w = aget df w := by
  have h := aget_foldl_removeDfStep p L df hnd w
  rw [hw] at h
  simpa using h

theorem aget_df_remove_no_posting (p : String)
    (L : List (String × List (String × Nat)))
    (df : List (String × Int)) (hnd : (L.map Prod.fst).Nodup)
    (w : String) (docs : List (String × Nat)) (hw : aget L w = some docs)
    (hdp : aget docs p = none) :
    aget (L.foldl (removeDfStep p) df) w = aget df w := by
  have h := aget_foldl_removeDfStep p L df hnd w
  rw [hw] at h
  simp only [hdp] at h
  simpa using h

theorem aget_df_remove_last (p : String)
    (L : List (String × List (String × Nat)))
    (df : List (String × Int)) (hnd : (L.map Prod.fst).Nodup)
    (w : String) (docs : List (String × Nat)) (c : Nat)
    (hw : aget L w = some docs) (hdp : aget docs p = some c)
    (h1 : docs.length = 1) :
    aget (L.foldl (removeDfStep p) df) w = none := by
  have h := aget_foldl_removeDfStep p L df hnd w
  rw [hw] at h
  simp only [hdp, h1] at h
  simpa using h

theorem aget_df_remove_shrink (p : String)
    (L : List (String × List (String × Nat)))
    (df : List (String × Int)) (hnd : (L.map Prod.fst).Nodup)
    (w : String) (docs : List (String × Nat)) (c : Nat)
    (hw : aget L w = some docs) (hdp : aget docs p = some c)
    (h1 : docs.length ≠ 1) :
    aget (L.foldl (removeDfStep p) df) w =
      some ((docs.length : Int) - 1) := by
  have h := aget_foldl_removeDfStep p L df hnd w
  rw [hw] at h
  simp only [hdp, h1] at h
  simpa using h

theorem removeDocument_self_none (idx : Index) (p : String) :
    aget (removeDocument idx p).documents p = none := by
  unfold removeDocument
  cases h : aget idx.documents p with
  | none => exact h
  | some d => exact aget_adel_self _ _

theorem removeDocument_documents_frame (idx : Index) (p q : String)
    (h : p ≠ q) :
    aget (removeDocument idx p).documents q = aget idx.documents q := by
  unfold removeDocument
  cases hd : aget idx.documents p with
  | none => rfl
  | some d => exact aget_adel_ne _ _ _ h

theorem nodup_foldl_removeDfStep (p : String) :
    ∀ (L : List (String × List (String × Nat)))
      (df : List (String × Int)),
      (akeys df).Nodup → (akeys (L.foldl (removeDfStep p) df)).Nodup := by
  intro L
  induction L with
  | nil => intro df h; exact h
  | cons e t ih =>
    intro df h
    rw [List.foldl_cons]
    refine ih _ ?_
    unfold removeDfStep
    cases aget e.2 p with
    | none => exact h
    | some c =>
      by_cases h1 : e.2.length = 1
      · simp only [h1, if_pos trivial]
        exact nodup_akeys_adel _ _ h
      · simp only [if_neg h1]
        exact nodup_akeys_aset _ _ _ h

/-- `removeDocument` preserves well-formedness, the docFreq invariant
and count positivity, from any state satisfying all three. -/
theorem removeDocument_preserves (idx : Index) (p : String)
    (hwf : MapsWf idx) (hinv : DocFreqInv idx) (hpos : PosCounts idx) :
    MapsWf (removeDocument idx p) ∧ DocFreqInv (removeDocument idx p) ∧
    PosCounts (removeDocument idx p) := by
  cases hd : aget idx.documents p with
  | none =>
    unfold removeDocument
    rw [hd]
    exact ⟨hwf, hinv, hpos⟩
  | some d =>
    have hpair : PairOk idx.invertedIndex idx.docFreq :=
      (pairOk_iff idx hwf).1 ⟨hinv, hpos⟩
    rw [removeDocument_eq idx p d hd hwf.2.1 hinv.2.2 hpos]
    set I₂ := idx.invertedIndex.filterMap (removeEntryResult p) with hI
    set D₂ := idx.invertedIndex.foldl (removeDfStep p) idx.docFreq
      with hD
    have hndi := hwf.2.1
    have hpair₂ : PairOk I₂ D₂ := by
      refine ⟨⟨(akeys_filterMap_sublist p _).nodup hndi,
        nodup_foldl_removeDfStep p _ _ hwf.2.2.1⟩, ?_, ?_⟩
      · intro w
        cases hw : aget idx.invertedIndex w with
        | none =>
          have hdfn : aget idx.docFreq w = none := by
            have := (hpair.2.1 w).2
            cases hdf : aget idx.docFreq w with
            | none => rfl
            | some v =>
              rw [hw] at this
              simp [hdf] at this
          rw [hI, hD, aget_inv_remove_of_none p _ hndi w hw,
            aget_df_remove_of_none p _ _ hndi w hw, hdfn]
          exact Iff.rfl
        | some docs =>
          obtain ⟨hdfw, hnodocs, hposdocs⟩ := hpair.2.2 w docs hw
          cases hdp : aget docs p with
          | none =>
            rw [hI, hD, aget_inv_remove_no_posting p _ hndi w docs hw hdp,
              aget_df_remove_no_posting p _ _ hndi w docs hw hdp, hdfw]
            simp
          | some c =>
            by_cases h1 : docs.length = 1
            · rw [hI, hD, aget_inv_remove_last p _ hndi w docs c hw hdp h1,
                aget_df_remove_last p _ _ hndi w docs c hw hdp h1]
              exact Iff.rfl
            · rw [hI, hD,
                aget_inv_remove_shrink p _ hndi w docs c hw hdp h1,
                aget_df_remove_shrink p _ _ hndi w docs c hw hdp h1]
              simp
      · intro w docs₂ hw₂
        rw [hI] at hw₂
        cases hw : aget idx.invertedIndex w with
        | none =>
          rw [aget_inv_remove_of_none p _ hndi w hw] at hw₂
          cases hw₂
        | some docs =>
          obtain ⟨hdfw, hnodocs, hposdocs⟩ := hpair.2.2 w docs hw
          cases hdp : aget docs p with
          | none =>
            rw [aget_inv_remove_no_posting p _ hndi w docs hw hdp] at hw₂
            have hd₂ : docs₂ = docs := by
              injection hw₂ with h
              exact h.symm
            rw [hd₂, hD, aget_df_remove_no_posting p _ _ hndi w docs hw hdp]
            exact ⟨hdfw, hnodocs, hposdocs⟩
          | some c =>
            by_cases h1 : docs.length = 1
            · rw [aget_inv_remove_last p _ hndi w docs c hw hdp h1] at hw₂
              cases hw₂
            · rw [aget_inv_remove_shrink p _ hndi w docs c hw hdp h1]
                at hw₂
              have hd₂ : docs₂ = adel docs p := by
                injection hw₂ with h
                exact h.symm
              rw [hd₂, hD,
                aget_df_remove_shrink p _ _ hndi w docs c hw hdp h1]
              have hlen : (adel docs p).length + 1 = docs.length :=
                length_adel_mem _ _ hnodocs (by rw [hdp]; rfl)
              refine ⟨?_, nodup_akeys_adel _ _ hnodocs, ?_⟩
              · congr 1
                omega
              · intro q hq
                exact hposdocs q (mem_of_mem_adel hq)
    have hwf₂ : MapsWf
        { idx with
          documents := adel idx.documents p
          invertedIndex := I₂
          docFreq := D₂
          totalDocs := idx.totalDocs - 1 } := by
      refine ⟨nodup_akeys_adel _ _ hwf.1, hpair₂.1.1, hpair₂.1.2, ?_⟩
      intro e he
      exact (hpair₂.2.2 e.1 e.2 (mem_aget_of_nodup hpair₂.1.1 he)).2.1
    have := (pairOk_iff _ hwf₂).2 hpair₂
    exact ⟨hwf₂, this.1, this.2⟩

theorem removeDocument_posting_frame (idx : Index) (p q : String)
    (hq : p ≠ q) (hwf : MapsWf idx) (hinv : DocFreqInv idx)
    (hpos : PosCounts idx) (w : String) :
    postingOf (removeDocument idx p) w q = postingOf idx w q := by
  cases hd : aget idx.documents p with
  | none =>
    unfold removeDocument postingOf
    rw [hd]
  | some d =>
    have hndi := hwf.2.1
    rw [removeDocument_eq idx p d hd hwf.2.1 hinv.2.2 hpos]
    unfold postingOf
    simp only
    cases hw : aget idx.invertedIndex w with
    | none =>
      rw [aget_inv_remove_of_none p _ hndi w hw]
    | some docs =>
      cases hdp : aget docs p with
      | none =>
        rw [aget_inv_remove_no_posting p _ hndi w docs hw hdp]
      | some c =>
        by_cases h1 : docs.length = 1
        · rw [aget_inv_remove_last p _ hndi w docs c hw hdp h1]
          obtain ⟨e, he⟩ := List.length_eq_one.1 h1
          subst he
          have hep : e.1 = p := by
            by_cases hcc : e.1 = p
            · exact hcc
            · simp [aget, hcc] at hdp
          have hq₂ : aget [e] q = none := by
            simp [aget, hep, hq]
          simp [hq₂]
        · rw [aget_inv_remove_shrink p _ hndi w docs c hw hdp h1]
          simpa using aget_adel_ne _ _ _ hq

/-! ### Query engine (`search`, engine.js lines 270-319)

`Math.log` becomes `Real.log` and scores live in `ℝ`.  The source maps
each candidate to `{path, filename, score, preview}`; `filename` and
`preview` are display-only projections of stored data, so results are
modelled as `(path, score)` pairs.  `Array.prototype.sort` with
comparator `(a, b) => b.score - a.score` is a stable sort by descending
score, modelled by insertion sort with the total relation
"left score is at least right score". -/

/-- The inverse-document-frequency weight
`Math.log((totalDocs + 1) / (docFreq[token] + 1)) + 1`
(engine.js lines 284-286). -/
noncomputable def idfR (n df : Int) : ℝ :=
  Real.log (((n : ℝ) + 1) / ((df : ℝ) + 1)) + 1

/-- Score accumulation for one query token (engine.js lines 280-305):
skip tokens with no posting map, and for each posting add
`(count / wordCount) * idf` to the document's score unless the extension
filter excludes it.  A missing `docFreq` entry would make the JS idf
`NaN`; it is read with default `0` here, a branch unreachable when
`docFreq` and `invertedIndex` have the same keys. -/
noncomputable def accumToken (idx : Index) (extensions : List String)
    (cs : List (String × ℝ)) (token : String) : List (String × ℝ) :=
  match aget idx.invertedIndex token with
  | none => cs
  | some docs =>
    let idf := idfR idx.totalDocs ((aget idx.docFreq token).getD 0)
    docs.foldl (fun cs e =>
      match aget idx.documents e.1 with
      | none => cs
      | some doc =>
        if 0 < extensions.length ∧ extensions.contains doc.extension = false
        then cs
        else
          aset cs e.1 ((aget cs e.1).getD 0 +
            ((e.2 : ℝ) / (doc.wordCount : ℝ)) * idf)) cs

/-- Stable sort by descending score (the comparator
`(a, b) => b.score - a.score`, engine.js line 315). -/
noncomputable def sortByScoreDesc (l : List (String × ℝ)) :
    List (String × ℝ) :=
  letI : DecidableRel (fun a b : String × ℝ => b.2 ≤ a.2) :=
    fun a b => Classical.dec _
  List.insertionSort (fun a b => b.2 ≤ a.2) l

/-- `search(query, extensions, limit)` (engine.js lines 270-319). -/
noncomputable def search (idx : Index) (query : String)
    (extensions : List String) (limit : Nat) : List (String × ℝ) :=
  let queryTokens := tokenize query
  if queryTokens.isEmpty then []
  else
    let candidateScores :=
      queryTokens.foldl (accumToken idx extensions) []
    (sortByScoreDesc candidateScores).take limit

/-! ### Ignore matcher, binary detection and directory crawl
(engine.js lines 57-115, 125-214)

Filesystem reads are abstracted: the crawled tree is a list of
`FsEntry` values (the order `readdirSync` would return), `statSync` is
the optional `(size, mtime)` on a file (`none` when it throws), and
`readFileSync` the optional content.  Paths are POSIX: `path.join(a, b)`
is `a ++ "/" ++ b` and, for a root without a trailing separator,
`path.relative(root, root ++ "/" ++ r)` is `r`, so the walk carries the
relative path as an accumulated prefix. -/

/-- `String.prototype.startsWith`, written on character lists so that
concrete instances reduce within the kernel. -/
def strStartsWith (s pre : String) : Bool :=
  pre.toList.isPrefixOf s.toList

/-- `String.prototype.endsWith`, written on character lists. -/
def strEndsWith (s suf : String) : Bool :=
  suf.toList.isSuffixOf s.toList

/-- `String.prototype.split` on a single separator character: pieces
between separator occurrences, including empty ones. -/
def splitCharAux (sep : Char) : List Char → List Char → List (List Char)
  | [], acc => [acc.reverse]
  | c :: cs, acc =>
    if c = sep then acc.reverse :: splitCharAux sep cs []
    else splitCharAux sep cs (c :: acc)

def splitChar (sep : Char) (s : String) : List String :=
  (splitCharAux sep s.toList []).map List.asString

/-- `String.prototype.trim`: strip whitespace from both ends. -/
def strTrim (s : String) : String :=
  (((s.toList.dropWhile isJsSpace).reverse.dropWhile
    isJsSpace).reverse).asString

/-- `String.prototype.slice(n)`. -/
def strDrop (s : String) (n : Nat) : String :=
  (s.toList.drop n).asString

/-- The built-in ignore patterns (engine.js lines 63-81). -/
def defaultPatterns : List String :=
  ["node_modules/", ".git/", ".svn/", ".hg/", "target/", "dist/",
   "build/", ".next/", ".nuxt/", "coverage/", "*.log", ".env", ".env.*",
   "*.min.js", "*.min.css", ".local-search-index/", ".local-search/"]

/-- `content.split('\n').filter(l => l.trim() && !l.startsWith('#'))`
(engine.js line 94). -/
def parseIgnoreLines (content : String) : List String :=
  (splitChar '\n' content).filter
    (fun l => decide (strTrim l ≠ "") && !(strStartsWith l "#"))

/-- The pattern list of `loadIgnorePatterns` (engine.js lines 62-95);
`ignoreContent` is the text of `.searchignore` (or, failing that,
`.gitignore`), empty when neither file exists. -/
def loadIgnorePatterns (ignoreContent : String) : List String :=
  defaultPatterns ++ parseIgnoreLines ignoreContent

/-- `pattern.replace(/\/$/, '')`: strip one trailing slash. -/
def cleanPattern (pattern : String) : String :=
  if strEndsWith pattern "/" then pattern.toList.dropLast.asString
  else pattern

/-- The per-pattern test inside `ignores` (engine.js lines 99-110). -/
def patternMatches (relativePath pattern : String) : Bool :=
  let clean := cleanPattern pattern
  decide (relativePath = clean) ||
  strStartsWith relativePath (clean ++ "/") ||
  strStartsWith relativePath (clean ++ "\\") ||
  (strStartsWith pattern "*." &&
    strEndsWith relativePath ("." ++ strDrop pattern 2))

/-- `ig.ignores(relativePath)` (engine.js lines 98-113). -/
def ignores (patterns : List String) (relativePath : String) : Bool :=
  patterns.any (patternMatches relativePath)

/-- `path.basename`: the part after the last `/`. -/
def basenameStr (p : String) : String :=
  (splitChar '/' p).getLastD p

/-- `path.extname` (POSIX): the suffix of the basename from its last
dot, empty when there is no dot or the only dot is the leading one of a
dotfile.  (Basenames consisting solely of dots cannot occur as directory
entries and are not treated specially.) -/
def extname (p : String) : String :=
  let cs := (basenameStr p).toList
  match cs.reverse.findIdx? (fun c => c = '.') with
  | none => ""
  | some k =>
    let i := cs.length - 1 - k
    if i = 0 then "" else (cs.drop i).asString

/-- `path.extname(filePath).toLowerCase().replace('.', '')`
(engine.js lines 58, 177, 365); the extname output holds at most one
dot, so removing the first dot occurrence amounts to dropping every
dot. -/
def extLowerNoDot (p : String) : String :=
  (((extname p).toList.map Char.toLower).filter
    (fun c => c ≠ '.')).asString

/-- `BINARY_EXTENSIONS` (engine.js lines 11-20). -/
def binaryExtensions : List String :=
  ["exe", "dll", "so", "dylib", "bin",
   "jpg", "jpeg", "png", "gif", "bmp", "webp", "svg", "ico",
   "mp3", "mp4", "avi", "mov", "mkv", "wav", "flac",
   "zip", "tar", "gz", "bz2", "7z", "rar",
   "pdf", "doc", "docx", "xls", "xlsx", "ppt", "pptx",
   "o", "obj", "a", "lib", "class", "pyc", "pyo",
   "woff", "woff2", "ttf", "otf", "eot",
   "db", "sqlite", "sqlite3"]

/-- `isBinaryFile(filePath)` (engine.js lines 57-60). -/
def isBinaryFile (filePath : String) : Bool :=
  binaryExtensions.contains (extLowerNoDot filePath)

/-- `MAX_FILE_SIZE` (engine.js line 7). -/
def maxFileSize : Nat := 5 * 1024 * 1024

/-- One directory entry as the walk sees it: a file with its
`statSync` result (`none` when `statSync` throws) and its
`readFileSync` result (`none` when reading throws), a directory with
its children in `readdirSync` order, or an entry that is neither a
regular file nor a directory (skipped by the walk). -/
inductive FsEntry where
  | file (name : String) (stat : Option (Nat × Int))
      (content : Option String)
  | dir (name : String) (entries : List FsEntry)
  | other (name : String)

/-- The counters returned by `indexDirectory` (the wall-clock
`duration` field is not modelled). -/
structure Counters where
  filesIndexed : Nat
  binaryFiles : Nat
  ignoredFiles : Nat
deriving DecidableEq

/-- The body of `walkDir` for one file entry
(engine.js lines 152-194). -/
def processFile (root : String) (pats : List String)
    (relPath name : String) (stat : Option (Nat × Int))
    (content : Option String) (st : Index × Counters) :
    Index × Counters :=
  let idx := st.1
  let c := st.2
  if ignores pats relPath then
    (idx, { c with ignoredFiles := c.ignoredFiles + 1 })
  else
    let fullPath := root ++ "/" ++ relPath
    if isBinaryFile fullPath then
      (idx, { c with binaryFiles := c.binaryFiles + 1 })
    else
      match stat with
      | none => (idx, { c with ignoredFiles := c.ignoredFiles + 1 })
      | some (size, mtime) =>
        if maxFileSize < size then (idx, c)
        else
          match aget idx.documents fullPath with
          | some doc₀ =>
            if doc₀.modified = mtime then (idx, c)
            else
              match content with
              | none =>
                (idx, { c with ignoredFiles := c.ignoredFiles + 1 })
              | some text =>
                (addDocument (removeDocument idx fullPath) fullPath name
                    text mtime (extLowerNoDot fullPath),
                  { c with filesIndexed := c.filesIndexed + 1 })
          | none =>
            match content with
            | none =>
              (idx, { c with ignoredFiles := c.ignoredFiles + 1 })
            | some text =>
              (addDocument idx fullPath name text mtime
                  (extLowerNoDot fullPath),
                { c with filesIndexed := c.filesIndexed + 1 })

mutual

/-- `walkDir` on a single entry (engine.js lines 141-197). -/
def walkEntry (root : String) (pats : List String) (relPfx : String)
    (st : Index × Counters) : FsEntry → Index × Counters
  | FsEntry.file name stat content =>
    processFile root pats (relPfx ++ name) name stat content st
  | FsEntry.other _ => st
  | FsEntry.dir name entries =>
    if ignores pats (relPfx ++ name ++ "/") then st
    else walkList root pats (relPfx ++ name ++ "/") st entries

/-- `walkDir` over a list of entries, threading the engine state. -/
def walkList (root : String) (pats : List String) (relPfx : String)
    (st : Index × Counters) : List FsEntry → Index × Counters
  | [] => st
  | e :: es =>
    walkList root pats relPfx (walkEntry root pats relPfx st e) es

end

/-- The initial removal phase of `indexDirectory(dirPath, force)`
(engine.js lines 134-139): remove every indexed document whose path
starts with the string `dirPath`. -/
def forceRemovePhase (idx : Index) (dirPath : String) : Index :=
  ((akeys idx.documents).filter
    (fun q => strStartsWith q dirPath)).foldl removeDocument idx

/-- `indexDirectory(dirPath, force)` (engine.js lines 125-214) over the
abstract tree `entries`; `now` is the ISO timestamp written to
`lastUpdated`.  The `saveIndex()` call persists the returned index and
is outside the state model. -/
def indexDirectory (idx : Index) (dirPath : String) (force : Bool)
    (entries : List FsEntry) (ignoreContent : String) (now : String) :
    Index × Counters :=
  let pats := loadIgnorePatterns ignoreContent
  let idx₀ := if force then forceRemovePhase idx dirPath else idx
  let st := walkList dirPath pats "" (idx₀, ⟨0, 0, 0⟩) entries
  ({ st.1 with lastUpdated := some now }, st.2)

/-- What the filesystem says about one stored path during `update()`:
the path no longer exists, `statSync` throws, or the file is present
with a modification time and (optional, `none` when reading throws)
content. -/
inductive FileProbe where
  | absent
  | statErr
  | present (mtime : Int) (content : Option String)

/-- The result record of `update()` (engine.js lines 350-352, 378). -/
structure UpdateResult where
  added : Nat
  removed : Nat
  modified : Nat
deriving DecidableEq

/-- One iteration of the `update()` loop (engine.js lines 354-375) for
a stored `(path, document)` entry. -/
def updateStep (fs : String → FileProbe) (st : Index × UpdateResult)
    (e : String × Document) : Index × UpdateResult :=
  let idx := st.1
  let r := st.2
  match fs e.1 with
  | FileProbe.absent =>
    (removeDocument idx e.1, { r with removed := r.removed + 1 })
  | FileProbe.statErr => (idx, r)
  | FileProbe.present mtime content =>
    if mtime ≠ e.2.modified then
      match content with
      | none => (idx, r)
      | some text =>
        (addDocument (removeDocument idx e.1) e.1 (basenameStr e.1) text
            mtime (extLowerNoDot e.1),
          { r with modified := r.modified + 1 })
    else (idx, r)

/-- `update()` (engine.js lines 349-379): iterate the snapshot of
stored document entries, not the filesystem tree.  `saveIndex()` is
outside the state model. -/
def update (fs : String → FileProbe) (idx : Index) :
    Index × UpdateResult :=
  idx.documents.foldl (updateStep fs) (idx, ⟨0, 0, 0⟩)

/-! ### Claim theorems -/

/-- C4: for every input text, `tokenize` returns exactly the maximal
runs of characters from `[a-z0-9_]` of the lower-cased input, in order
of occurrence, keeping only runs of length 2..50 (`tokenizeSpec`).
Determinism is inherent in the functional embedding, and the very same
`tokenize` definition is invoked by `addDocument` on document content
and by `search` on the query string, mirroring the single
`this.tokenize` method of the source. -/
theorem C4_tokenize_maximal_runs :
    ∀ text : String, tokenize text = tokenizeSpec text := by
  intro text
  unfold tokenize tokenizeSpec tokenizeL
  congr 1
  have h := (splitWs_eq_wordRuns (text.toList.map Char.toLower)).1 []
  simpa using h

/-- C7: for every term with `1 ≤ docFreq ≤ totalDocs`, the weight
`idf = ln((totalDocs + 1) / (docFreq + 1)) + 1` computed by `search` is
at least 1, in particular strictly positive, including when
`docFreq = totalDocs`. -/
theorem C7_idf_at_least_one (n df : Int) (h₁ : 1 ≤ df) (h₂ : df ≤ n) :
    1 ≤ idfR n df ∧ 0 < idfR n df := by
  have hb : (0 : ℝ) < (df : ℝ) + 1 := by
    have : (1 : ℝ) ≤ (df : ℝ) := by exact_mod_cast h₁
    linarith
  have hle : (df : ℝ) + 1 ≤ (n : ℝ) + 1 := by
    have : (df : ℝ) ≤ (n : ℝ) := by exact_mod_cast h₂
    linarith
  have hx : (1 : ℝ) ≤ ((n : ℝ) + 1) / ((df : ℝ) + 1) :=
    (one_le_div hb).2 hle
  have hlog : 0 ≤ Real.log (((n : ℝ) + 1) / ((df : ℝ) + 1)) :=
    Real.log_nonneg hx
  constructor
  · unfold idfR; linarith
  · unfold idfR; linarith

/-- Witness for C7 at `totalDocs = 1`, `docFreq = 1` (a term occurring
in every indexed document). -/
theorem C7_idf_at_least_one_witness : 1 ≤ idfR 1 1 ∧ 0 < idfR 1 1 :=
  C7_idf_at_least_one 1 1 (by decide) (by decide)

/-- C6: with equal `wordCount` and equal per-document count, the
contribution `(count / wordCount) * idf` of a rarer term (strictly lower
docFreq, both between 1 and totalDocs) is strictly larger; equivalently
`idf` is strictly decreasing in `docFreq` for fixed `totalDocs`. -/
theorem C6_idf_strictly_decreasing (n dfX dfY : Int) (c wc : Nat)
    (h₁ : 1 ≤ dfX) (h₂ : dfX < dfY) (h₃ : dfY ≤ n) (hc : 0 < c)
    (hwc : 0 < wc) :
    ((c : ℝ) / (wc : ℝ)) * idfR n dfY <
      ((c : ℝ) / (wc : ℝ)) * idfR n dfX ∧
    idfR n dfY < idfR n dfX := by
  have hbX : (0 : ℝ) < (dfX : ℝ) + 1 := by
    have : (1 : ℝ) ≤ (dfX : ℝ) := by exact_mod_cast h₁
    linarith
  have hbY : (0 : ℝ) < (dfY : ℝ) + 1 := by
    have : (dfX : ℝ) < (dfY : ℝ) := by exact_mod_cast h₂
    linarith
  have ha : (0 : ℝ) < (n : ℝ) + 1 := by
    have h4 : (dfY : ℝ) ≤ (n : ℝ) := by exact_mod_cast h₃
    linarith
  have hlt : (dfX : ℝ) + 1 < (dfY : ℝ) + 1 := by
    have : (dfX : ℝ) < (dfY : ℝ) := by exact_mod_cast h₂
    linarith
  have hdiv : ((n : ℝ) + 1) / ((dfY : ℝ) + 1) <
      ((n : ℝ) + 1) / ((dfX : ℝ) + 1) :=
    div_lt_div_of_pos_left ha hbX hlt
  have hdivY : (0 : ℝ) < ((n : ℝ) + 1) / ((dfY : ℝ) + 1) :=
    div_pos ha hbY
  have hlog := Real.log_lt_log hdivY hdiv
  have hidf : idfR n dfY < idfR n dfX := by
    unfold idfR; linarith
  refine ⟨?_, hidf⟩
  have hcw : (0 : ℝ) < (c : ℝ) / (wc : ℝ) :=
    div_pos (by exact_mod_cast hc) (by exact_mod_cast hwc)
  exact mul_lt_mul_of_pos_left hidf hcw

/-- Witness for C6 at `totalDocs = 2`, `docFreq` 1 versus 2, count 1,
wordCount 3. -/
theorem C6_idf_strictly_decreasing_witness :
    ((1 : ℝ) / (3 : ℝ)) * idfR 2 2 < ((1 : ℝ) / (3 : ℝ)) * idfR 2 1 ∧
    idfR 2 2 < idfR 2 1 := by
  have h := C6_idf_strictly_decreasing 2 1 2 1 3 (by decide) (by decide)
    (by decide) (by decide) (by decide)
  exact_mod_cast h

/-- C9: `loadIndex()` on a missing backing file, or on one whose
contents fail to parse, raises no error and yields the fresh empty index
`{version: 1, documents: {}, invertedIndex: {}, docFreq: {},
totalDocs: 0, lastUpdated: null}`. -/
theorem C9_loadIndex_fresh :
    loadIndex none = createEmptyIndex ∧
    loadIndex (some none) = createEmptyIndex ∧
    createEmptyIndex =
      { version := 1
        documents := []
        invertedIndex := []
        docFreq := []
        totalDocs := 0
        lastUpdated := none } :=
  ⟨rfl, rfl, rfl⟩

theorem updateStep_added (fs : String → FileProbe)
    (st : Index × UpdateResult) (e : String × Document) :
    (updateStep fs st e).2.added = st.2.added := by
  cases hfs : fs e.1 with
  | absent => simp [updateStep, hfs]
  | statErr => simp [updateStep, hfs]
  | present mtime content =>
    by_cases h : mtime ≠ e.2.modified
    · cases content <;> simp [updateStep, hfs, h]
    · simp [updateStep, hfs, h]

/-- C10: `update()` never reports an added document: for every
filesystem state and every index, the returned `added` counter is 0,
since the loop only iterates already-stored document paths. -/
theorem C10_update_added_zero (fs : String → FileProbe) (idx : Index) :
    (update fs idx).2.added = 0 := by
  unfold update
  have key : ∀ (L : List (String × Document)) (st : Index × UpdateResult),
      (L.foldl (updateStep fs) st).2.added = st.2.added := by
    intro L
    induction L with
    | nil => intro st; rfl
    | cons e t ih =>
      intro st
      rw [List.foldl_cons, ih, updateStep_added]
  exact key idx.documents (idx, ⟨0, 0, 0⟩)

/-! ### The two-document scenario of claim C3 -/

/-- The index after indexing `a.txt` = "apple banana apple" and
`b.txt` = "banana cherry" through `addDocument`. -/
def scenarioIndex : Index :=
  addDocument (addDocument createEmptyIndex "a.txt" "a.txt"
    "apple banana apple" 100 "txt") "b.txt" "b.txt" "banana cherry" 200
    "txt"

/-- The literal value of `scenarioIndex`. -/
def scenarioLit : Index :=
  { version := 1
    documents :=
      [("a.txt", ⟨"a.txt", "apple banana apple", 100, 18, "txt", 3, 2⟩),
       ("b.txt", ⟨"b.txt", "banana cherry", 200, 13, "txt", 2, 2⟩)]
    invertedIndex :=
      [("apple", [("a.txt", 2)]),
       ("banana", [("a.txt", 1), ("b.txt", 1)]),
       ("cherry", [("b.txt", 1)])]
    docFreq := [("apple", 1), ("banana", 2), ("cherry", 1)]
    totalDocs := 2
    lastUpdated := none }

set_option maxRecDepth 8000 in
theorem scenarioIndex_eq : scenarioIndex = scenarioLit := by
  decide

theorem idfR_two_two : idfR 2 2 = 1 := by
  unfold idfR
  norm_num

theorem idfR_two_one : idfR 2 1 = Real.log ((3 : ℝ)/2) + 1 := by
  unfold idfR
  norm_num

theorem scenario_candidates_banana :
    (["banana"].foldl (accumToken scenarioLit []) []) =
      [("a.txt", (1 : ℝ)/3), ("b.txt", (1 : ℝ)/2)] := by
  simp +decide [List.foldl_cons, List.foldl_nil, accumToken, scenarioLit,
    aget, aset, idfR_two_two]

theorem scenario_candidates_apple :
    (["apple"].foldl (accumToken scenarioLit []) []) =
      [("a.txt", (2 : ℝ)/3 * (Real.log ((3 : ℝ)/2) + 1))] := by
  simp +decide [List.foldl_cons, List.foldl_nil, accumToken, scenarioLit,
    aget, aset, idfR_two_one]

theorem scenario_sorted_banana :
    sortByScoreDesc [("a.txt", (1 : ℝ)/3), ("b.txt", (1 : ℝ)/2)] =
      [("b.txt", (1 : ℝ)/2), ("a.txt", (1 : ℝ)/3)] := by
  unfold sortByScoreDesc
  simp only [List.insertionSort, List.orderedInsert]
  rw [if_neg (by norm_num)]

theorem sortByScoreDesc_singleton (x : String × ℝ) :
    sortByScoreDesc [x] = [x] := by
  unfold sortByScoreDesc
  simp [List.insertionSort, List.orderedInsert]

theorem search_scenario_banana :
    search scenarioLit "banana" [] 20 =
      [("b.txt", (1 : ℝ)/2), ("a.txt", (1 : ℝ)/3)] := by
  have ht : tokenize "banana" = ["banana"] := by decide
  unfold search
  rw [ht]
  simp only [List.isEmpty_cons, Bool.false_eq_true, if_false,
    scenario_candidates_banana, scenario_sorted_banana, List.take]

theorem search_scenario_apple :
    search scenarioLit "apple" [] 20 =
      [("a.txt", (2 : ℝ)/3 * (Real.log ((3 : ℝ)/2) + 1))] := by
  have ht : tokenize "apple" = ["apple"] := by decide
  unfold search
  rw [ht]
  simp only [List.isEmpty_cons, Bool.false_eq_true, if_false]
  rw [scenario_candidates_apple]
  simp only [sortByScoreDesc_singleton, List.take]

/-- C3: after indexing `a.txt` = "apple banana apple" (wordCount 3) and
`b.txt` = "banana cherry" (wordCount 2), so that `docFreq["apple"] = 1`
and `docFreq["banana"] = 2: searching "apple" (default extension filter
and limit) returns exactly `a.txt` with score
`(2/3) * (ln(3/2) + 1)`, and searching "banana" returns `b.txt` with
score `1/2` ranked before `a.txt` with score `1/3`
(`idf("banana") = ln(3/3) + 1 = 1`). -/
theorem C3_two_document_scenario :
    aget scenarioIndex.docFreq "apple" = some 1 ∧
    aget scenarioIndex.docFreq "banana" = some 2 ∧
    (aget scenarioIndex.documents "a.txt").map Document.wordCount =
      some 3 ∧
    (aget scenarioIndex.documents "b.txt").map Document.wordCount =
      some 2 ∧
    scenarioIndex.documents.length = 2 ∧
    search scenarioIndex "apple" [] 20 =
      [("a.txt", (2 : ℝ)/3 * (Real.log ((3 : ℝ)/2) + 1))] ∧
    search scenarioIndex "banana" [] 20 =
      [("b.txt", (1 : ℝ)/2), ("a.txt", (1 : ℝ)/3)] := by
  rw [scenarioIndex_eq]
  refine ⟨by decide, by decide, by decide, by decide, by decide, ?_, ?_⟩
  · exact search_scenario_apple
  · exact search_scenario_banana

/-- C5 counterexample: a crawl over a single 6,000,000-byte regular
file (readable, not ignored, not binary) skips it but returns every
counter as zero — the oversized file is counted nowhere, so the claim
that it "is counted in the operation's returned counters" is false. -/
theorem C5_oversized_uncounted_cex :
    maxFileSize < 6000000 ∧
    ignores (loadIgnorePatterns "") "big.txt" = false ∧
    isBinaryFile "/r/big.txt" = false ∧
    (indexDirectory createEmptyIndex "/r" false
      [FsEntry.file "big.txt" (some (6000000, 5)) (some "hello world")]
      "" "t").2 =
      { filesIndexed := 0, binaryFiles := 0, ignoredFiles := 0 } := by
  have h1 : ignores (loadIgnorePatterns "") "big.txt" = false := by
    decide
  have h2 : isBinaryFile "/r/big.txt" = false := by decide
  refine ⟨by decide, h1, h2, ?_⟩
  simp +decide [indexDirectory, walkList, walkEntry, processFile,
    maxFileSize, h1, h2]

/-- C5 (amended): during `indexDirectory`, a regular file whose size
exceeds 5 MB — and which the earlier ignore and binary checks did not
already claim — is skipped without its content being read (the result
is the same for every possible content, including an unreadable file),
the crawl continues with the remaining entries, and, contrary to the
claim as stated, it is counted in none of the returned counters: the
engine state and all three counters pass through unchanged. -/
theorem C5_oversized_skipped_unread_uncounted (root : String)
    (pats : List String) (relPfx name : String) (size : Nat)
    (mtime : Int) (content : Option String) (st : Index × Counters)
    (rest : List FsEntry)
    (hig : ignores pats (relPfx ++ name) = false)
    (hbin : isBinaryFile (root ++ "/" ++ (relPfx ++ name)) = false)
    (hsize : maxFileSize < size) :
    walkEntry root pats relPfx st
      (FsEntry.file name (some (size, mtime)) content) = st ∧
    walkList root pats relPfx st
      (FsEntry.file name (some (size, mtime)) content :: rest) =
      walkList root pats relPfx st rest := by
  have h1 : walkEntry root pats relPfx st
      (FsEntry.file name (some (size, mtime)) content) = st := by
    simp [walkEntry, processFile, hig, hbin, hsize]
  refine ⟨h1, ?_⟩
  rw [walkList, h1]

/-- Witness for the amended C5 on a concrete oversized file. -/
theorem C5_oversized_skipped_unread_uncounted_witness :
    walkEntry "/r" (loadIgnorePatterns "") "" (createEmptyIndex, ⟨0, 0, 0⟩)
      (FsEntry.file "big.txt" (some (6000000, 5)) none) =
      (createEmptyIndex, ⟨0, 0, 0⟩) ∧
    walkList "/r" (loadIgnorePatterns "") "" (createEmptyIndex, ⟨0, 0, 0⟩)
      (FsEntry.file "big.txt" (some (6000000, 5)) none :: []) =
      walkList "/r" (loadIgnorePatterns "") ""
        (createEmptyIndex, ⟨0, 0, 0⟩) [] :=
  C5_oversized_skipped_unread_uncounted "/r" (loadIgnorePatterns "") ""
    "big.txt" 6000000 5 none (createEmptyIndex, ⟨0, 0, 0⟩) []
    (by decide) (by decide) (by decide)

/-! ### The force-removal phase of `indexDirectory` (claim C8) -/

theorem foldl_removeDocument_not_mem :
    ∀ (R : List String) (idx : Index) (q : String), q ∉ R →
      aget (R.foldl removeDocument idx).documents q =
        aget idx.documents q := by
  intro R
  induction R with
  | nil => intro idx q _; rfl
  | cons r R₂ ih =>
    intro idx q hq
    simp only [List.mem_cons, not_or] at hq
    rw [List.foldl_cons, ih _ _ hq.2,
      removeDocument_documents_frame _ _ _
        (fun hc => hq.1 hc.symm)]

theorem foldl_removeDocument_mem :
    ∀ (R : List String) (idx : Index) (q : String), q ∈ R →
      aget (R.foldl removeDocument idx).documents q = none := by
  intro R
  induction R with
  | nil => intro idx q hq; simp at hq
  | cons r R₂ ih =>
    intro idx q hq
    rw [List.foldl_cons]
    by_cases hq₂ : q ∈ R₂
    · exact ih _ _ hq₂
    · have hqr : q = r := by
        rcases List.mem_cons.1 hq with h | h
        · exact h
        · exact absurd h hq₂
      subst hqr
      rw [foldl_removeDocument_not_mem _ _ _ hq₂,
        removeDocument_self_none]

theorem foldl_removeDocument_preserves :
    ∀ (R : List String) (idx : Index),
      MapsWf idx → DocFreqInv idx → PosCounts idx →
      MapsWf (R.foldl removeDocument idx) ∧
      DocFreqInv (R.foldl removeDocument idx) ∧
      PosCounts (R.foldl removeDocument idx) := by
  intro R
  induction R with
  | nil => intro idx h₁ h₂ h₃; exact ⟨h₁, h₂, h₃⟩
  | cons r R₂ ih =>
    intro idx h₁ h₂ h₃
    rw [List.foldl_cons]
    obtain ⟨g₁, g₂, g₃⟩ := removeDocument_preserves idx r h₁ h₂ h₃
    exact ih _ g₁ g₂ g₃

theorem foldl_removeDocument_posting_frame :
    ∀ (R : List String) (idx : Index) (q : String),
      (∀ r ∈ R, r ≠ q) →
      MapsWf idx → DocFreqInv idx → PosCounts idx → ∀ w,
      postingOf (R.foldl removeDocument idx) w q = postingOf idx w q := by
  intro R
  induction R with
  | nil => intro idx q _ _ _ _ w; rfl
  | cons r R₂ ih =>
    intro idx q hne h₁ h₂ h₃ w
    rw [List.foldl_cons]
    obtain ⟨g₁, g₂, g₃⟩ := removeDocument_preserves idx r h₁ h₂ h₃
    rw [ih _ _ (fun s hs => hne s (List.mem_cons_of_mem _ hs)) g₁ g₂ g₃
      w]
    exact removeDocument_posting_frame idx r q
      (hne r (List.mem_cons_self _ _)) h₁ h₂ h₃ w

/-- Modelled from the claim's words: a path lies under `rootPath` when
it is `rootPath` itself or a path inside that directory subtree. -/
def liesUnder (q rootPath : String) : Bool :=
  decide (q = rootPath) || strStartsWith q (rootPath ++ "/")

/-- An index holding `/root/a.txt` and also `/rootbackup/b.txt`, a path
that does not lie under the directory `/root`. -/
def prefixIdx : Index :=
  addDocument (addDocument createEmptyIndex "/root/a.txt" "a.txt"
    "alpha beta" 1 "txt") "/rootbackup/b.txt" "b.txt" "gamma delta" 2
    "txt"

set_option maxRecDepth 16000 in
/-- C8 counterexample: the removal phase of
`indexDirectory("/root", force)` also removes `/rootbackup/b.txt`,
whose path does not lie under `/root` — the phase removes by the string
test `path.startsWith(dirPath)`, not by directory containment, so it
does not remove "exactly" the documents under `rootPath`. -/
theorem C8_force_phase_cex :
    liesUnder "/rootbackup/b.txt" "/root" = false ∧
    (aget prefixIdx.documents "/rootbackup/b.txt").isSome = true ∧
    aget (forceRemovePhase prefixIdx "/root").documents
      "/rootbackup/b.txt" = none := by
  refine ⟨by decide, by decide, by decide⟩

/-- C8 (amended): the removal phase of
`indexDirectory(rootPath, force = true)` removes exactly the
currently-indexed documents whose path starts with the string
`rootPath` (a superset of the paths lying under `rootPath`); every
document whose path does not start with `rootPath` keeps its Document
record and every posting — and hence its docFreq contribution —
unchanged by the phase. -/
theorem C8_force_phase_removes_by_string (idx : Index)
    (dirPath : String) (hwf : MapsWf idx) (hinv : DocFreqInv idx)
    (hpos : PosCounts idx) :
    (∀ q, strStartsWith q dirPath = true →
      aget (forceRemovePhase idx dirPath).documents q = none) ∧
    (∀ q, strStartsWith q dirPath = false →
      aget (forceRemovePhase idx dirPath).documents q =
        aget idx.documents q ∧
      ∀ w, postingOf (forceRemovePhase idx dirPath) w q =
        postingOf idx w q) := by
  unfold forceRemovePhase
  constructor
  · intro q hq
    by_cases hmem : (aget idx.documents q).isSome
    · have hk : q ∈ akeys idx.documents :=
        (isSome_aget_iff_mem_akeys _ _).1 hmem
      have hr : q ∈ (akeys idx.documents).filter
          (fun s => strStartsWith s dirPath) :=
        List.mem_filter.2 ⟨hk, by rw [hq]⟩
      exact foldl_removeDocument_mem _ _ _ hr
    · have hnone : aget idx.documents q = none := by
        cases hg : aget idx.documents q with
        | none => rfl
        | some v => rw [hg] at hmem; simp at hmem
      have hnr : q ∉ (akeys idx.documents).filter
          (fun s => strStartsWith s dirPath) := by
        intro hc
        exact hmem ((isSome_aget_iff_mem_akeys _ _).2
          (List.mem_filter.1 hc).1)
      rw [foldl_removeDocument_not_mem _ _ _ hnr, hnone]
  · intro q hq
    have hnr : q ∉ (akeys idx.documents).filter
        (fun s => strStartsWith s dirPath) := by
      intro hc
      have := (List.mem_filter.1 hc).2
      rw [hq] at this
      cases this
    refine ⟨foldl_removeDocument_not_mem _ _ _ hnr, ?_⟩
    intro w
    refine foldl_removeDocument_posting_frame _ _ _ ?_ hwf hinv hpos w
    intro r hr hcq
    subst hcq
    have := (List.mem_filter.1 hr).2
    rw [hq] at this
    cases this

set_option maxRecDepth 16000 in
/-- Witness for the amended C8 on `prefixIdx`. -/
theorem C8_force_phase_removes_by_string_witness :
    aget (forceRemovePhase prefixIdx "/root").documents
      "/root/a.txt" = none ∧
    aget (forceRemovePhase prefixIdx "/root").documents
      "/elsewhere/c.txt" = aget prefixIdx.documents "/elsewhere/c.txt" ∧
    postingOf (forceRemovePhase prefixIdx "/root") "alpha"
      "/elsewhere/c.txt" = postingOf prefixIdx "alpha"
      "/elsewhere/c.txt" := by
  have h := C8_force_phase_removes_by_string prefixIdx "/root"
    (by decide) (by decide) (by decide)
  exact ⟨h.1 "/root/a.txt" (by decide),
    (h.2 "/elsewhere/c.txt" (by decide)).1,
    (h.2 "/elsewhere/c.txt" (by decide)).2 "alpha"⟩

/-! ### Preservation of state predicates through the crawl and update -/

theorem processFile_eq_ignored (root : String) (pats : List String)
    (relPath name : String) (stat : Option (Nat × Int))
    (content : Option String) (st : Index × Counters)
    (hig : ignores pats relPath = true) :
    processFile root pats relPath name stat content st =
      (st.1, { st.2 with ignoredFiles := st.2.ignoredFiles + 1 }) := by
  simp [processFile, hig]

theorem processFile_eq_binary (root : String) (pats : List String)
    (relPath name : String) (stat : Option (Nat × Int))
    (content : Option String) (st : Index × Counters)
    (hig : ignores pats relPath = false)
    (hbin : isBinaryFile (root ++ "/" ++ relPath) = true) :
    processFile root pats relPath name stat content st =
      (st.1, { st.2 with binaryFiles := st.2.binaryFiles + 1 }) := by
  simp [processFile, hig, hbin]

theorem processFile_eq_statErr (root : String) (pats : List String)
    (relPath name : String) (content : Option String)
    (st : Index × Counters) (hig : ignores pats relPath = false)
    (hbin : isBinaryFile (root ++ "/" ++ relPath) = false) :
    processFile root pats relPath name none content st =
      (st.1, { st.2 with ignoredFiles := st.2.ignoredFiles + 1 }) := by
  simp [processFile, hig, hbin]

theorem processFile_eq_oversized (root : String) (pats : List String)
    (relPath name : String) (size : Nat) (mtime : Int)
    (content : Option String) (st : Index × Counters)
    (hig : ignores pats relPath = false)
    (hbin : isBinaryFile (root ++ "/" ++ relPath) = false)
    (hsize : maxFileSize < size) :
    processFile root pats relPath name (some (size, mtime)) content st =
      st := by
  simp [processFile, hig, hbin, hsize]

theorem processFile_eq_unchanged (root : String) (pats : List String)
    (relPath name : String) (size : Nat) (mtime : Int)
    (content : Option String) (st : Index × Counters) (doc₀ : Document)
    (hig : ignores pats relPath = false)
    (hbin : isBinaryFile (root ++ "/" ++ relPath) = false)
    (hsize : ¬ maxFileSize < size)
    (hex : aget st.1.documents (root ++ "/" ++ relPath) = some doc₀)
    (hmod : doc₀.modified = mtime) :
    processFile root pats relPath name (some (size, mtime)) content st =
      st := by
  simp [processFile, hig, hbin, hsize, hex, hmod]

theorem processFile_eq_readErr_stale (root : String)
    (pats : List String) (relPath name : String) (size : Nat)
    (mtime : Int) (st : Index × Counters) (doc₀ : Document)
    (hig : ignores pats relPath = false)
    (hbin : isBinaryFile (root ++ "/" ++ relPath) = false)
    (hsize : ¬ maxFileSize < size)
    (hex : aget st.1.documents (root ++ "/" ++ relPath) = some doc₀)
    (hmod : ¬ doc₀.modified = mtime) :
    processFile root pats relPath name (some (size, mtime)) none st =
      (st.1, { st.2 with ignoredFiles := st.2.ignoredFiles + 1 }) := by
  simp [processFile, hig, hbin, hsize, hex, hmod]

theorem processFile_eq_replace (root : String) (pats : List String)
    (relPath name : String) (size : Nat) (mtime : Int) (text : String)
    (st : Index × Counters) (doc₀ : Document)
    (hig : ignores pats relPath = false)
    (hbin : isBinaryFile (root ++ "/" ++ relPath) = false)
    (hsize : ¬ maxFileSize < size)
    (hex : aget st.1.documents (root ++ "/" ++ relPath) = some doc₀)
    (hmod : ¬ doc₀.modified = mtime) :
    processFile root pats relPath name (some (size, mtime)) (some text)
        st =
      (addDocument (removeDocument st.1 (root ++ "/" ++ relPath))
          (root ++ "/" ++ relPath) name text mtime
          (extLowerNoDot (root ++ "/" ++ relPath)),
        { st.2 with filesIndexed := st.2.filesIndexed + 1 }) := by
  simp [processFile, hig, hbin, hsize, hex, hmod]

theorem processFile_eq_readErr_new (root : String)
    (pats : List String) (relPath name : String) (size : Nat)
    (mtime : Int) (st : Index × Counters)
    (hig : ignores pats relPath = false)
    (hbin : isBinaryFile (root ++ "/" ++ relPath) = false)
    (hsize : ¬ maxFileSize < size)
    (hex : aget st.1.documents (root ++ "/" ++ relPath) = none) :
    processFile root pats relPath name (some (size, mtime)) none st =
      (st.1, { st.2 with ignoredFiles := st.2.ignoredFiles + 1 }) := by
  simp [processFile, hig, hbin, hsize, hex]

theorem processFile_eq_new (root : String) (pats : List String)
    (relPath name : String) (size : Nat) (mtime : Int) (text : String)
    (st : Index × Counters)
    (hig : ignores pats relPath = false)
    (hbin : isBinaryFile (root ++ "/" ++ relPath) = false)
    (hsize : ¬ maxFileSize < size)
    (hex : aget st.1.documents (root ++ "/" ++ relPath) = none) :
    processFile root pats relPath name (some (size, mtime)) (some text)
        st =
      (addDocument st.1 (root ++ "/" ++ relPath) name text mtime
          (extLowerNoDot (root ++ "/" ++ relPath)),
        { st.2 with filesIndexed := st.2.filesIndexed + 1 }) := by
  simp [processFile, hig, hbin, hsize, hex]

theorem processFile_preserves (Q : Index → Prop)
    (hrem : ∀ idx p, Q idx → Q (removeDocument idx p))
    (hadd : ∀ idx p n c m e, Q idx → aget idx.documents p = none →
      Q (addDocument idx p n c m e))
    (root : String) (pats : List String) (relPath name : String)
    (stat : Option (Nat × Int)) (content : Option String)
    (st : Index × Counters) (h : Q st.1) :
    Q (processFile root pats relPath name stat content st).1 := by
  by_cases hig : ignores pats relPath = true
  · rw [processFile_eq_ignored root pats relPath name stat content st
      hig]
    exact h
  · have hig₂ : ignores pats relPath = false := by
      cases hg : ignores pats relPath with
      | false => rfl
      | true => exact absurd hg hig
    by_cases hbin : isBinaryFile (root ++ "/" ++ relPath) = true
    · rw [processFile_eq_binary root pats relPath name stat content st
        hig₂ hbin]
      exact h
    · have hbin₂ : isBinaryFile (root ++ "/" ++ relPath) = false := by
        cases hg : isBinaryFile (root ++ "/" ++ relPath) with
        | false => rfl
        | true => exact absurd hg hbin
      cases stat with
      | none =>
        rw [processFile_eq_statErr root pats relPath name content st
          hig₂ hbin₂]
        exact h
      | some sz =>
        obtain ⟨size, mtime⟩ := sz
        by_cases hsize : maxFileSize < size
        · rw [processFile_eq_oversized root pats relPath name size
            mtime content st hig₂ hbin₂ hsize]
          exact h
        · cases hex : aget st.1.documents (root ++ "/" ++ relPath) with
          | some doc₀ =>
            by_cases hmod : doc₀.modified = mtime
            · rw [processFile_eq_unchanged root pats relPath name size
                mtime content st doc₀ hig₂ hbin₂ hsize hex hmod]
              exact h
            · cases content with
              | none =>
                rw [processFile_eq_readErr_stale root pats relPath name
                  size mtime st doc₀ hig₂ hbin₂ hsize hex hmod]
                exact h
              | some text =>
                rw [processFile_eq_replace root pats relPath name size
                  mtime text st doc₀ hig₂ hbin₂ hsize hex hmod]
                exact hadd _ _ _ _ _ _ (hrem _ _ h)
                  (removeDocument_self_none _ _)
          | none =>
            cases content with
            | none =>
              rw [processFile_eq_readErr_new root pats relPath name
                size mtime st hig₂ hbin₂ hsize hex]
              exact h
            | some text =>
              rw [processFile_eq_new root pats relPath name size mtime
                text st hig₂ hbin₂ hsize hex]
              exact hadd _ _ _ _ _ _ h hex

mutual

theorem walkEntry_preserves (Q : Index → Prop)
    (hrem : ∀ idx p, Q idx → Q (removeDocument idx p))
    (hadd : ∀ idx p n c m e, Q idx → aget idx.documents p = none →
      Q (addDocument idx p n c m e))
    (root : String) (pats : List String) :
    ∀ (relPfx : String) (st : Index × Counters) (e : FsEntry),
      Q st.1 → Q (walkEntry root pats relPfx st e).1
  | relPfx, st, FsEntry.file name stat content, h => by
    rw [walkEntry]
    exact processFile_preserves Q hrem hadd root pats _ name stat
      content st h
  | _, st, FsEntry.other n, h => by
    rw [walkEntry]
    exact h
  | relPfx, st, FsEntry.dir name entries, h => by
    rw [walkEntry]
    by_cases hig : ignores pats (relPfx ++ name ++ "/") = true
    · rw [if_pos hig]
      exact h
    · rw [if_neg hig]
      exact walkList_preserves Q hrem hadd root pats _ st entries h

theorem walkList_preserves (Q : Index → Prop)
    (hrem : ∀ idx p, Q idx → Q (removeDocument idx p))
    (hadd : ∀ idx p n c m e, Q idx → aget idx.documents p = none →
      Q (addDocument idx p n c m e))
    (root : String) (pats : List String) :
    ∀ (relPfx : String) (st : Index × Counters) (es : List FsEntry),
      Q st.1 → Q (walkList root pats relPfx st es).1
  | _, st, [], h => by
    rw [walkList]
    exact h
  | relPfx, st, e :: es, h => by
    rw [walkList]
    exact walkList_preserves Q hrem hadd root pats relPfx _ es
      (walkEntry_preserves Q hrem hadd root pats relPfx st e h)

end

theorem foldl_removeDocument_pred (Q : Index → Prop)
    (hrem : ∀ idx p, Q idx → Q (removeDocument idx p)) :
    ∀ (R : List String) (idx : Index), Q idx →
      Q (R.foldl removeDocument idx) := by
  intro R
  induction R with
  | nil => intro idx h; exact h
  | cons r R₂ ih =>
    intro idx h
    rw [List.foldl_cons]
    exact ih _ (hrem _ _ h)

theorem indexDirectory_preserves (Q : Index → Prop)
    (hrem : ∀ idx p, Q idx → Q (removeDocument idx p))
    (hadd : ∀ idx p n c m e, Q idx → aget idx.documents p = none →
      Q (addDocument idx p n c m e))
    (hlu : ∀ idx now, Q idx → Q { idx with lastUpdated := some now })
    (idx : Index) (dirPath : String) (force : Bool)
    (entries : List FsEntry) (ignoreContent now : String)
    (h : Q idx) :
    Q (indexDirectory idx dirPath force entries ignoreContent now).1 := by
  unfold indexDirectory
  refine hlu _ _ ?_
  refine walkList_preserves Q hrem hadd dirPath _ _ _ entries ?_
  by_cases hf : force = true
  · rw [if_pos hf]
    exact foldl_removeDocument_pred Q hrem _ _ h
  · rw [if_neg hf]
    exact h

theorem updateStep_preserves (Q : Index → Prop)
    (hrem : ∀ idx p, Q idx → Q (removeDocument idx p))
    (hadd : ∀ idx p n c m e, Q idx → aget idx.documents p = none →
      Q (addDocument idx p n c m e))
    (fs : String → FileProbe) (st : Index × UpdateResult)
    (e : String × Document) (h : Q st.1) :
    Q (updateStep fs st e).1 := by
  unfold updateStep
  split
  · exact hrem _ _ h
  · exact h
  · split
    · split
      · exact h
      · exact hadd _ _ _ _ _ _ (hrem _ _ h)
          (removeDocument_self_none _ _)
    · exact h

theorem update_preserves (Q : Index → Prop)
    (hrem : ∀ idx p, Q idx → Q (removeDocument idx p))
    (hadd : ∀ idx p n c m e, Q idx → aget idx.documents p = none →
      Q (addDocument idx p n c m e))
    (fs : String → FileProbe) (idx : Index) (h : Q idx) :
    Q (update fs idx).1 := by
  unfold update
  have key : ∀ (L : List (String × Document)) (st : Index × UpdateResult),
      Q st.1 → Q ((L.foldl (updateStep fs) st)).1 := by
    intro L
    induction L with
    | nil => intro st hst; exact hst
    | cons e t ih =>
      intro st hst
      rw [List.foldl_cons]
      exact ih _ (updateStep_preserves Q hrem hadd fs st e hst)
  exact key idx.documents (idx, ⟨0, 0, 0⟩) h

/-! ### Claims C1 and C2 -/

theorem removeDocument_eq_self (idx : Index) (p : String)
    (hd : aget idx.documents p = none) : removeDocument idx p = idx := by
  simp [removeDocument, hd]

theorem removeDocument_documents_eq (idx : Index) (p : String)
    (d : Document) (hd : aget idx.documents p = some d) :
    (removeDocument idx p).documents = adel idx.documents p := by
  simp [removeDocument, hd]

theorem removeDocument_totalDocs_sub (idx : Index) (p : String)
    (d : Document) (hd : aget idx.documents p = some d) :
    (removeDocument idx p).totalDocs = idx.totalDocs - 1 := by
  simp [removeDocument, hd]

/-- The invariant of claim C2 — `totalDocs` equals the number of
document entries — together with the representation fact that a JS
object holds each key once. -/
def DocCountOk (idx : Index) : Prop :=
  (akeys idx.documents).Nodup ∧
  idx.totalDocs = (idx.documents.length : Int)

instance (idx : Index) : Decidable (DocCountOk idx) := by
  unfold DocCountOk; infer_instance

theorem removeDocument_docCountOk (idx : Index) (p : String)
    (h : DocCountOk idx) : DocCountOk (removeDocument idx p) := by
  cases hd : aget idx.documents p with
  | none => rw [removeDocument_eq_self idx p hd]; exact h
  | some d =>
    have hlen : (adel idx.documents p).length + 1 =
        idx.documents.length :=
      length_adel_mem _ _ h.1 (by rw [hd]; rfl)
    constructor
    · rw [removeDocument_documents_eq idx p d hd]
      exact nodup_akeys_adel _ _ h.1
    · rw [removeDocument_documents_eq idx p d hd,
        removeDocument_totalDocs_sub idx p d hd, h.2]
      omega

theorem addDocument_docCountOk (idx : Index)
    (p n c : String) (m : Int) (e : String) (h : DocCountOk idx)
    (habs : aget idx.documents p = none) :
    DocCountOk (addDocument idx p n c m e) := by
  have hdocs : (addDocument idx p n c m e).documents =
      aset idx.documents p _ := rfl
  have htot : (addDocument idx p n c m e).totalDocs =
      idx.totalDocs + 1 := rfl
  constructor
  · rw [hdocs]
    exact nodup_akeys_aset _ _ _ h.1
  · rw [hdocs, htot, length_aset_none _ _ _ habs, h.2]
    omega

/-- C2 counterexample: `addDocument` on a path that is already indexed
replaces the document entry but still increments `totalDocs`, so from a
state satisfying `totalDocs = |documents|` a single `addDocument` —
one of the operations the claim quantifies over — breaks the equality:
after adding the same path twice `totalDocs` is 2 while `documents`
holds one entry. -/
theorem C2_totaldocs_double_add_cex :
    DocCountOk (addDocument createEmptyIndex "a" "a" "hello world" 1
      "txt") ∧
    MapsWf (addDocument createEmptyIndex "a" "a" "hello world" 1
      "txt") ∧
    (addDocument (addDocument createEmptyIndex "a" "a" "hello world" 1
      "txt") "a" "a" "hello world" 2 "txt").totalDocs = 2 ∧
    (addDocument (addDocument createEmptyIndex "a" "a" "hello world" 1
      "txt") "a" "a" "hello world" 2 "txt").documents.length = 1 ∧
    ¬ DocCountOk (addDocument (addDocument createEmptyIndex "a" "a"
      "hello world" 1 "txt") "a" "a" "hello world" 2 "txt") := by
  refine ⟨by decide, by decide, by decide, by decide, by decide⟩

/-- C2 (amended): `totalDocs = |documents|` is preserved by
`removeDocument` from any state in which it holds, by `addDocument`
from any such state in which the path is not already a document key,
and — since `indexDirectory` and `update` only ever add a path after
finding no record for it or removing the existing record first — by
every `indexDirectory` and every `update`, from any state in which it
holds. -/
theorem C2_totaldocs_preserved :
    (∀ idx p, DocCountOk idx → DocCountOk (removeDocument idx p)) ∧
    (∀ idx p n c m e, DocCountOk idx → aget idx.documents p = none →
      DocCountOk (addDocument idx p n c m e)) ∧
    (∀ idx dirPath force entries ignoreContent now, DocCountOk idx →
      DocCountOk
        (indexDirectory idx dirPath force entries ignoreContent
          now).1) ∧
    (∀ fs idx, DocCountOk idx → DocCountOk (update fs idx).1) := by
  refine ⟨removeDocument_docCountOk, addDocument_docCountOk, ?_, ?_⟩
  · intro idx dirPath force entries ignoreContent now h
    exact indexDirectory_preserves DocCountOk removeDocument_docCountOk
      addDocument_docCountOk (fun _ _ hq => hq) idx dirPath force
      entries ignoreContent now h
  · intro fs idx h
    exact update_preserves DocCountOk removeDocument_docCountOk
      addDocument_docCountOk fs idx h

/-- Witness for the amended C2: adding a fresh path to the empty
index. -/
theorem C2_totaldocs_preserved_witness :
    DocCountOk (addDocument createEmptyIndex "p" "p" "aa bb" 1 "t") :=
  C2_totaldocs_preserved.2.1 createEmptyIndex "p" "p" "aa bb" 1 "t"
    (by decide) (by decide)

theorem addPostingStep_nonempty (p : String)
    (inv : List (String × List (String × Nat)))
    (df : List (String × Int)) (word : String) (count : Nat)
    (hnd : (akeys inv).Nodup) (hne : ∀ e ∈ inv, e.2 ≠ []) :
    ∀ e ∈ (addPostingStep p (inv, df) (word, count)).1, e.2 ≠ [] := by
  intro e he
  unfold addPostingStep at he
  cases hiw : aget inv word with
  | none =>
    simp only [hiw, aget_aset_self, Option.getD_some] at he
    rcases mem_aset_cases (nodup_akeys_aset _ _ _ hnd) he with
      ⟨hm, hk⟩ | heq
    · rcases mem_aset_cases hnd hm with ⟨hm₂, _⟩ | heq₂
      · exact hne e hm₂
      · exact absurd (by rw [heq₂]) hk
    · rw [heq]
      exact aset_ne_nil _ _ _
  | some docs =>
    simp only [hiw, Option.getD_some] at he
    rcases mem_aset_cases hnd he with ⟨hm, _⟩ | heq
    · exact hne e hm
    · rw [heq]
      exact aset_ne_nil _ _ _

theorem foldl_addPostingStep_nonempty (p : String)
    (wcs : List (String × Nat)) :
    ∀ inv df, PairOk inv df → (∀ q ∈ wcs, 0 < q.2) →
      (∀ e ∈ inv, e.2 ≠ []) →
      ∀ e ∈ (wcs.foldl (addPostingStep p) (inv, df)).1, e.2 ≠ [] := by
  induction wcs with
  | nil => intro inv df _ _ hne; exact hne
  | cons wc t ih =>
    intro inv df hp hpos hne
    obtain ⟨word, count⟩ := wc
    have hstep := @addPostingStep_pairOk p inv df word count hp
      (hpos _ (List.mem_cons_self _ _))
    have hnestep := addPostingStep_nonempty p inv df word count
      hp.1.1 hne
    have := ih (addPostingStep p (inv, df) (word, count)).1
      (addPostingStep p (inv, df) (word, count)).2 hstep
      (fun q hq => hpos q (List.mem_cons_of_mem _ hq)) hnestep
    simpa using this

/-- `addDocument` never leaves an empty posting map: updated maps gain
an entry and fresh maps are created with the new posting. -/
theorem addDocument_nonemptyPostings (idx : Index)
    (p n c : String) (m : Int) (ext : String) (hwf : MapsWf idx)
    (hinv : DocFreqInv idx) (hpos : PosCounts idx)
    (hne : NonemptyPostings idx) :
    NonemptyPostings (addDocument idx p n c m ext) := by
  have hpair : PairOk idx.invertedIndex idx.docFreq :=
    (pairOk_iff idx hwf).1 ⟨hinv, hpos⟩
  have hcnt : ∀ q ∈ (tokenize c).foldl bump [], 0 < q.2 :=
    wordCounts_pos _ [] (by simp)
  intro e₂ he₂
  exact foldl_addPostingStep_nonempty p ((tokenize c).foldl bump [])
    idx.invertedIndex idx.docFreq hpair hcnt hne e₂ he₂

/-- `removeDocument` never leaves an empty posting map: a map reduced
to its last posting is deleted together with its docFreq entry, and a
shrunken map keeps at least one posting. -/
theorem removeDocument_nonemptyPostings (idx : Index) (p : String)
    (hwf : MapsWf idx) (hinv : DocFreqInv idx) (hpos : PosCounts idx)
    (hne : NonemptyPostings idx) :
    NonemptyPostings (removeDocument idx p) := by
  cases hd : aget idx.documents p with
  | none =>
    rw [removeDocument_eq_self idx p hd]
    exact hne
  | some d =>
    rw [removeDocument_eq idx p d hd hwf.2.1 hinv.2.2 hpos]
    intro e₂ he₂
    simp only at he₂
    obtain ⟨e, he, hf⟩ := List.mem_filterMap.1 he₂
    unfold removeEntryResult at hf
    cases hdp : aget e.2 p with
    | none =>
      rw [hdp] at hf
      simp only [Option.some.injEq] at hf
      rw [← hf]
      exact hne e he
    | some c =>
      rw [hdp] at hf
      by_cases h1 : e.2.length = 1
      · simp [h1] at hf
      · simp only [if_neg h1, Option.some.injEq] at hf
        rw [← hf]
        have hmem : (p, c) ∈ e.2 := aget_mem hdp
        have hlen₁ : 0 < e.2.length := List.length_pos.2 (by
          intro hcon
          rw [hcon] at hmem
          simp at hmem)
        have hlen : (adel e.2 p).length + 1 = e.2.length :=
          length_adel_mem _ _ (hwf.2.2.2 e he) (by rw [hdp]; rfl)
        intro hcon
        have hcon₂ : adel e.2 p = [] := hcon
        rw [hcon₂] at hlen
        simp at hlen
        omega

/-- Under the full invariant every `docFreq` value is positive: there
are no zero entries. -/
theorem docFreq_pos_of_full_inv (idx : Index) (hwf : MapsWf idx)
    (hinv : DocFreqInv idx) (hne : NonemptyPostings idx) :
    ∀ e ∈ idx.docFreq, 0 < e.2 := by
  intro e he
  have hkey : e.1 ∈ akeys idx.docFreq :=
    List.mem_map_of_mem Prod.fst he
  have hkinv : e.1 ∈ akeys idx.invertedIndex := hinv.2.1 e.1 hkey
  have hsome : (aget idx.invertedIndex e.1).isSome :=
    (isSome_aget_iff_mem_akeys _ _).2 hkinv
  cases hg : aget idx.invertedIndex e.1 with
  | none => rw [hg] at hsome; simp at hsome
  | some docs =>
    have hmem : (e.1, docs) ∈ idx.invertedIndex := aget_mem hg
    have hdfe : aget idx.docFreq e.1 = some ((docs.length : Int)) :=
      hinv.2.2 _ hmem
    have hagete : aget idx.docFreq e.1 = some e.2 :=
      mem_aget_of_nodup hwf.2.2.1 he
    rw [hagete] at hdfe
    have hlen : 0 < docs.length :=
      List.length_pos.2 (hne _ hmem)
    injection hdfe with hval
    rw [hval]
    exact_mod_cast hlen

/-- A state with a stored posting count of `0`: the docFreq invariant
as claimed holds (`docFreq["xx"] = 1` and the posting map for "xx" has
exactly one entry, no posting map is empty), yet the count is zero. -/
def zeroCountIdx : Index :=
  { version := 1
    documents := []
    invertedIndex := [("xx", [("a", 0)])]
    docFreq := [("xx", 1)]
    totalDocs := 0
    lastUpdated := none }

/-- C1 counterexample: from `zeroCountIdx` — a well-formed state in
which the claimed invariant holds in full (matching counts, equal key
sets, no empty posting map, no zero or dangling docFreq entry) —
`addDocument` of a document at path "a" containing "xx" passes the JS
truthiness test `!invertedIndex["xx"]["a"]` (the stored count `0` is
falsy), increments `docFreq["xx"]` to 2, and overwrites the single
posting, leaving `docFreq["xx"] = 2` against one posting: the invariant
does not survive `addDocument` from every state in which it holds. -/
theorem C1_zero_count_cex :
    MapsWf zeroCountIdx ∧ DocFreqInv zeroCountIdx ∧
    NonemptyPostings zeroCountIdx ∧
    (∀ e ∈ zeroCountIdx.docFreq, 0 < e.2) ∧
    ¬ DocFreqInv (addDocument zeroCountIdx "a" "a" "xx xx" 1 "txt") := by
  refine ⟨by decide, by decide, by decide, by decide, by decide⟩

/-- C1 (amended): strengthened with the (engine-maintained) fact that
every stored posting count is positive, the full claimed invariant —
equal term key sets, `docFreq[T]` = number of postings under `T`, no
empty posting map (a term whose posting set becomes empty is deleted
from both maps), well-formed maps, positive counts — is preserved by
every `addDocument`, `removeDocument`, `indexDirectory` and `update`,
from any state satisfying it; and under that invariant no `docFreq`
entry is zero or dangling (first conjunct). -/
theorem C1_docfreq_invariant_preserved :
    (∀ idx, MapsWf idx → DocFreqInv idx → NonemptyPostings idx →
      ∀ e ∈ idx.docFreq, 0 < e.2) ∧
    (∀ idx p n c m e,
      MapsWf idx ∧ DocFreqInv idx ∧ PosCounts idx ∧
        NonemptyPostings idx →
      MapsWf (addDocument idx p n c m e) ∧
      DocFreqInv (addDocument idx p n c m e) ∧
      PosCounts (addDocument idx p n c m e) ∧
      NonemptyPostings (addDocument idx p n c m e)) ∧
    (∀ idx p,
      MapsWf idx ∧ DocFreqInv idx ∧ PosCounts idx ∧
        NonemptyPostings idx →
      MapsWf (removeDocument idx p) ∧
      DocFreqInv (removeDocument idx p) ∧
      PosCounts (removeDocument idx p) ∧
      NonemptyPostings (removeDocument idx p)) ∧
    (∀ idx dirPath force entries ignoreContent now,
      MapsWf idx ∧ DocFreqInv idx ∧ PosCounts idx ∧
        NonemptyPostings idx →
      MapsWf (indexDirectory idx dirPath force entries ignoreContent
        now).1 ∧
      DocFreqInv (indexDirectory idx dirPath force entries
        ignoreContent now).1 ∧
      PosCounts (indexDirectory idx dirPath force entries ignoreContent
        now).1 ∧
      NonemptyPostings (indexDirectory idx dirPath force entries
        ignoreContent now).1) ∧
    (∀ fs idx,
      MapsWf idx ∧ DocFreqInv idx ∧ PosCounts idx ∧
        NonemptyPostings idx →
      MapsWf (update fs idx).1 ∧ DocFreqInv (update fs idx).1 ∧
      PosCounts (update fs idx).1 ∧
      NonemptyPostings (update fs idx).1) := by
  have hadd : ∀ idx p n c m e,
      (fun i => MapsWf i ∧ DocFreqInv i ∧ PosCounts i ∧
        NonemptyPostings i) idx →
      aget idx.documents p = none →
      (fun i => MapsWf i ∧ DocFreqInv i ∧ PosCounts i ∧
        NonemptyPostings i) (addDocument idx p n c m e) := by
    intro idx p n c m e h _
    obtain ⟨t₁, t₂, t₃⟩ :=
      addDocument_preserves idx p n c m e h.1 h.2.1 h.2.2.1
    exact ⟨t₁, t₂, t₃,
      addDocument_nonemptyPostings idx p n c m e h.1 h.2.1 h.2.2.1
        h.2.2.2⟩
  have hrem : ∀ idx p,
      (fun i => MapsWf i ∧ DocFreqInv i ∧ PosCounts i ∧
        NonemptyPostings i) idx →
      (fun i => MapsWf i ∧ DocFreqInv i ∧ PosCounts i ∧
        NonemptyPostings i) (removeDocument idx p) := by
    intro idx p h
    obtain ⟨t₁, t₂, t₃⟩ :=
      removeDocument_preserves idx p h.1 h.2.1 h.2.2.1
    exact ⟨t₁, t₂, t₃,
      removeDocument_nonemptyPostings idx p h.1 h.2.1 h.2.2.1
        h.2.2.2⟩
  refine ⟨docFreq_pos_of_full_inv, ?_, ?_, ?_, ?_⟩
  · intro idx p n c m e h
    obtain ⟨t₁, t₂, t₃⟩ :=
      addDocument_preserves idx p n c m e h.1 h.2.1 h.2.2.1
    exact ⟨t₁, t₂, t₃,
      addDocument_nonemptyPostings idx p n c m e h.1 h.2.1 h.2.2.1
        h.2.2.2⟩
  · intro idx p h
    exact hrem idx p h
  · intro idx dirPath force entries ignoreContent now h
    exact indexDirectory_preserves _ hrem hadd (fun _ _ hq => hq) idx
      dirPath force entries ignoreContent now h
  · intro fs idx h
    exact update_preserves _ hrem hadd fs idx h

/-- Witness for the amended C1: indexing a fresh document into the
empty index. -/
theorem C1_docfreq_invariant_preserved_witness :
    MapsWf (addDocument createEmptyIndex "p" "p" "aa bb aa" 1 "t") ∧
    DocFreqInv (addDocument createEmptyIndex "p" "p" "aa bb aa" 1
      "t") ∧
    PosCounts (addDocument createEmptyIndex "p" "p" "aa bb aa" 1
      "t") ∧
    NonemptyPostings (addDocument createEmptyIndex "p" "p" "aa bb aa" 1
      "t") :=
  C1_docfreq_invariant_preserved.2.1 createEmptyIndex "p" "p"
    "aa bb aa" 1 "t" ⟨by decide, by decide, by decide, by decide⟩

end LocalSearch
